import Mathlib

/-!
A verification model of the `chjson` JSON-ish codec (module `chjson`, built
from `cjsonish.c`): a strict/loose JSON decoder (`decode(text, strict=False)`)
and an encoder (`encode(value)`).

The C implementation is not part of the source tree here; the definitions
below are modelled from the specification (spec.md) of the codec, with the
behaviours that the repository's own test suites (`test_chjson.py`,
`jsonishtest.py`) pin down taken as authoritative where they are explicit
about output shapes (for example, the encoder's `", "` and `": "` separators,
and the acceptance of literal TAB/FF/BS inside decoded strings).

Modelling conventions:
* Input text is a `List Char` of Unicode scalar values (a Lean `Char` is a
  Unicode scalar value, so lone surrogates are unrepresentable, matching the
  spec's string invariant).  UTF-8 byte-level validation is below this level
  of abstraction.
* Errors are modelled by their kind only; byte/line/column positions are
  dropped.
* Host floats are modelled as exact decimals `m * 10 ^ e` (`Value.float m e`);
  the "shortest round-trip decimal" of the spec corresponds to the canonical
  form in which the mantissa is not divisible by 10 (and `0` has exponent `0`).
  NaN and infinities are unrepresentable, so every modelled float is finite.
* The parser's recursion is fuelled; `decode` supplies `length + 1` fuel,
  which is always sufficient because every recursive step consumes input.
-/

namespace Chjson

/-- Modelled from the spec: decode error kinds (spec §7); the C source's
`DecodeError` carries a message, modelled here by the kind alone. -/
inductive Err where
  | UnexpectedCharacter
  | UnexpectedEOF
  | ExpectedStringKey
  | ExpectedColon
  | ExpectedComma
  | TrailingGarbage
  | UnterminatedString
  | UnterminatedComment
  | InvalidEscape
  | InvalidUnicodeEscape
  | LoneSurrogate
  | InvalidControlCharInString
  | InvalidUtf8
  | MalformedNumber
  | NumberOutOfRange
  | DepthExceeded
  | TrailingCommaInStrict
  | CommentInStrict
  | LineContinuationInStrict
  | MissingLeadingZeroInStrict
deriving DecidableEq

/-- Modelled from the spec: the host value model (spec §3).  Objects are
association lists in insertion order; floats are exact decimals `m * 10^e`. -/
inductive Value where
  | null
  | bool (b : Bool)
  | int (n : Int)
  | float (m : Int) (e : Int)
  | str (s : List Char)
  | arr (items : List Value)
  | obj (members : List (List Char × Value))

/-- Modelled from the spec and tests: host (Python) values the encoder
accepts: `None`, `bool`, `int`, `float`, `str`, `list`, `tuple`, `dict`. -/
inductive HostValue where
  | null
  | bool (b : Bool)
  | int (n : Int)
  | float (m : Int) (e : Int)
  | str (s : List Char)
  | list (xs : List HostValue)
  | tuple (xs : List HostValue)
  | dict (ms : List (List Char × HostValue))

/-- JSON insignificant whitespace (space, tab, LF, CR). -/
def isWs (c : Char) : Bool :=
  c = ' ' || c = '\t' || c = '\n' || c = '\r'

/-- States of the whitespace/comment skipper: plain scanning, inside a
`//` comment, inside a `/* */` comment. -/
inductive SkipSt where
  | normal
  | line
  | block

/-- Modelled from the spec: scanner skip of insignificant input (spec §4.1):
whitespace always; `//`-to-end-of-line and non-nesting `/* */` comments in
loose mode only.  In strict mode the skipper stops at the first non-whitespace
character (a stray `/` is then rejected by the dispatcher). -/
def skipInsigAux (strict : Bool) : SkipSt → List Char → Except Err (List Char)
  | .normal, [] => .ok []
  | .normal, c :: cs =>
    if isWs c then skipInsigAux strict .normal cs
    else if strict then .ok (c :: cs)
    else if c = '/' then
      match cs with
      | '/' :: rest => skipInsigAux strict .line rest
      | '*' :: rest => skipInsigAux strict .block rest
      | _ => .ok (c :: cs)
    else .ok (c :: cs)
  | .line, [] => .ok []
  | .line, c :: cs =>
    if c = '\n' || c = '\r' then skipInsigAux strict .normal cs
    else skipInsigAux strict .line cs
  | .block, [] => .error .UnterminatedComment
  | .block, '*' :: '/' :: rest => skipInsigAux strict .normal rest
  | .block, _ :: cs => skipInsigAux strict .block cs

/-- Skip insignificant input starting in the plain scanning state. -/
def skipInsig (strict : Bool) (s : List Char) : Except Err (List Char) :=
  skipInsigAux strict .normal s

/-- Value of a hex digit, if the character is one. -/
def hexVal (c : Char) : Option Nat :=
  if '0' ≤ c ∧ c ≤ '9' then some (c.toNat - 48)
  else if 'a' ≤ c ∧ c ≤ 'f' then some (c.toNat - 87)
  else if 'A' ≤ c ∧ c ≤ 'F' then some (c.toNat - 55)
  else none

/-- Prepend a character to the decoded-content component of a string-reader
result. -/
def consFst (c : Char) : Except Err (List Char × List Char) → Except Err (List Char × List Char)
  | .ok (s, r) => .ok (c :: s, r)
  | .error e => .error e

/-- Result of one step of the string reader: the closing quote was reached;
one decoded character was produced; a loose-mode line continuation consumed
input producing nothing; or the step failed. -/
inductive SRes where
  | done (rest : List Char)
  | emit (c : Char) (rest : List Char)
  | drop (rest : List Char)
  | fail (e : Err)

/-- Modelled from the spec: one step of the string reader (spec §4.2).
Escapes `\" \\ \/ \b \f \n \r \t \uXXXX` work in both modes, with
surrogate-pair assembly and lone-surrogate rejection; `\` before a line
terminator is a line continuation in loose mode and an invalid escape in
strict mode; any other escaped character is `InvalidEscape`, as is a `\`
whose lookahead ends the document (spec §9 pins `"\"` to `InvalidEscape`).
Literal LF and CR are rejected; other characters pass through (the test
`testDecodeLineContinuationsAndOtherEscapes` pins literal TAB/FF/BS as
accepted, so only the line terminators are `InvalidControlCharInString`). -/
def stringStep (strict : Bool) : List Char → SRes
  | [] => .fail .UnterminatedString
  | c :: cs =>
    if c = '"' then .done cs
    else if c = '\\' then
      match cs with
      | [] => .fail .InvalidEscape
      | '"' :: cs2 =>
        if cs2 = [] then .fail .InvalidEscape else .emit '"' cs2
      | '\\' :: cs2 => .emit '\\' cs2
      | '/' :: cs2 => .emit '/' cs2
      | 'b' :: cs2 => .emit '\x08' cs2
      | 'f' :: cs2 => .emit '\x0C' cs2
      | 'n' :: cs2 => .emit '\n' cs2
      | 'r' :: cs2 => .emit '\r' cs2
      | 't' :: cs2 => .emit '\t' cs2
      | 'u' :: h1 :: h2 :: h3 :: h4 :: cs3 =>
        (match hexVal h1, hexVal h2, hexVal h3, hexVal h4 with
         | some a, some b, some c1, some d1 =>
           let n := ((a * 16 + b) * 16 + c1) * 16 + d1
           if 0xD800 ≤ n ∧ n ≤ 0xDBFF then
             match cs3 with
             | '\\' :: 'u' :: g1 :: g2 :: g3 :: g4 :: cs4 =>
               (match hexVal g1, hexVal g2, hexVal g3, hexVal g4 with
                | some a2, some b2, some c2, some d2 =>
                  let m := ((a2 * 16 + b2) * 16 + c2) * 16 + d2
                  if 0xDC00 ≤ m ∧ m ≤ 0xDFFF then
                    .emit (Char.ofNat (0x10000 + (n - 0xD800) * 0x400 + (m - 0xDC00))) cs4
                  else .fail .LoneSurrogate
                | _, _, _, _ => .fail .InvalidUnicodeEscape)
             | _ => .fail .LoneSurrogate
           else if 0xDC00 ≤ n ∧ n ≤ 0xDFFF then .fail .LoneSurrogate
           else .emit (Char.ofNat n) cs3
         | _, _, _, _ => .fail .InvalidUnicodeEscape)
      | 'u' :: _ => .fail .InvalidUnicodeEscape
      | '\n' :: cs2 => if strict then .fail .InvalidEscape else .drop cs2
      | '\r' :: '\n' :: cs3 => if strict then .fail .InvalidEscape else .drop cs3
      | '\r' :: cs2 => if strict then .fail .InvalidEscape else .drop cs2
      | _ :: _ => .fail .InvalidEscape
    else if c = '\n' || c = '\r' then .fail .InvalidControlCharInString
    else .emit c cs

/-- Modelled from the spec: the string reader (spec §4.2), entered just past
the opening quote; returns the decoded content and the input past the closing
quote.  Iterates `stringStep` (fuelled; every step consumes input, so fuel
`length + 1` is always sufficient). -/
def parseStringBody (strict : Bool) : Nat → List Char → Except Err (List Char × List Char)
  | 0, _ => .error .UnterminatedString
  | f + 1, s =>
    match stringStep strict s with
    | .done rest => .ok ([], rest)
    | .emit c rest => consFst c (parseStringBody strict f rest)
    | .drop rest => parseStringBody strict f rest
    | .fail e => .error e

/-- Take the longest run of decimal digits from the front of the input. -/
def takeDigits : List Char → List Char × List Char
  | [] => ([], [])
  | c :: cs =>
    if c.isDigit then
      let p := takeDigits cs
      (c :: p.1, p.2)
    else ([], c :: cs)

/-- Numeric value of a digit string. -/
def digitsToNat (ds : List Char) : Nat :=
  ds.foldl (fun acc c => 10 * acc + (c.toNat - 48)) 0

/-- Strip trailing decimal zeros from a mantissa, bumping the exponent
(fuelled; fuel `m` is always sufficient). -/
def canonAux : Nat → Nat → Int → Nat × Int
  | 0, m, e => (m, e)
  | f + 1, m, e =>
    if m ≠ 0 ∧ m % 10 = 0 then canonAux f (m / 10) (e + 1) else (m, e)

/-- Build a float value in canonical form: zero is `float 0 0`; otherwise the
mantissa carries the sign and is not divisible by ten. -/
def mkFloat (neg : Bool) (m : Nat) (e : Int) : Value :=
  if m = 0 then .float 0 0
  else
    let p := canonAux m m e
    .float (if neg then -(p.1 : Int) else (p.1 : Int)) p.2

/-- Optional fractional part: `.` followed by one or more digits. -/
def parseFracPart (s : List Char) : Except Err (Option (List Char) × List Char) :=
  if s.head? = some '.' then
    let p := takeDigits s.tail
    if p.1 = [] then .error .MalformedNumber else .ok (some p.1, p.2)
  else .ok (none, s)

/-- Exponent digits after `e`/`E` and an optional sign. -/
def parseExpDigits (neg : Bool) (s : List Char) : Except Err (Option Int × List Char) :=
  let q := takeDigits s
  if q.1 = [] then .error .MalformedNumber
  else .ok (some (if neg then -(digitsToNat q.1 : Int) else (digitsToNat q.1 : Int)), q.2)

/-- Optional exponent part: `e` or `E`, optional sign, one or more digits. -/
def parseExpPart (s : List Char) : Except Err (Option Int × List Char) :=
  if s.head? = some 'e' ∨ s.head? = some 'E' then
    if s.tail.head? = some '-' then parseExpDigits true s.tail.tail
    else if s.tail.head? = some '+' then parseExpDigits false s.tail.tail
    else parseExpDigits false s.tail
  else .ok (none, s)

/-- Fraction, exponent and classification of a number whose optional sign and
integer digits have been consumed; a `.` immediately after the literal is
`MalformedNumber` (spec §4.3 pins `-44.4.4`). -/
def finishNumber (neg : Bool) (ds : List Char) (s : List Char) :
    Except Err (Value × List Char) :=
  match parseFracPart s with
  | .error e => .error e
  | .ok (ofs, s3) =>
    match parseExpPart s3 with
    | .error e => .error e
    | .ok (oexp, s4) =>
      if s4.head? = some '.' then .error .MalformedNumber
      else if ofs = none ∧ oexp = none then
        .ok (.int (if neg then -(digitsToNat ds : Int) else (digitsToNat ds : Int)), s4)
      else
        let fs := ofs.getD []
        .ok (mkFloat neg (digitsToNat (ds ++ fs)) ((oexp.getD 0) - fs.length), s4)

/-- The number reader after the optional leading `-` has been consumed. -/
def parseNumBody (strict : Bool) (neg : Bool) (s1 : List Char) :
    Except Err (Value × List Char) :=
  let q := takeDigits s1
  if q.1 = [] then
    if q.2.head? = some '.' then
      if strict then .error .MissingLeadingZeroInStrict
      else finishNumber neg [] q.2
    else .error .MalformedNumber
  else if 1 < q.1.length ∧ q.1.head? = some '0' then .error .MalformedNumber
  else finishNumber neg q.1 q.2

/-- Modelled from the spec: the number reader (spec §4.3).  Optional `-`;
integer part a single `0` or a nonzero-led digit run (a multi-digit run led by
`0` is `MalformedNumber` in both modes); in loose mode only, the integer part
may be omitted when a fractional part follows. -/
def parseNumber (strict : Bool) (s : List Char) : Except Err (Value × List Char) :=
  if s.head? = some '-' then parseNumBody strict true s.tail
  else parseNumBody strict false s

/-- Parser states for object and array bodies (spec §4.4): before the first
element, after a separating comma, after an element. -/
inductive SeqSt where
  | awaitFirst
  | awaitValue
  | afterValue
deriving DecidableEq

mutual

/-- Modelled from the spec: the value parser (spec §4.4): skip insignificant
input, dispatch on the first character; `.` starts a number in loose mode
only. -/
def parseValue (strict : Bool) : Nat → List Char → Except Err (Value × List Char)
  | 0, _ => .error .DepthExceeded
  | fuel + 1, s =>
    match skipInsig strict s with
    | .error e => .error e
    | .ok [] => .error .UnexpectedEOF
    | .ok (c :: r) =>
      if c = '\x7b' then parseMembers strict fuel r .awaitFirst []
      else if c = '[' then parseItems strict fuel r .awaitFirst []
      else if c = '"' then
        match parseStringBody strict (r.length + 1) r with
        | .error e => .error e
        | .ok (cs, rest) => .ok (.str cs, rest)
      else if c = 't' then
        match r with
        | 'r' :: 'u' :: 'e' :: r2 => .ok (.bool true, r2)
        | _ => .error .UnexpectedCharacter
      else if c = 'f' then
        match r with
        | 'a' :: 'l' :: 's' :: 'e' :: r2 => .ok (.bool false, r2)
        | _ => .error .UnexpectedCharacter
      else if c = 'n' then
        match r with
        | 'u' :: 'l' :: 'l' :: r2 => .ok (.null, r2)
        | _ => .error .UnexpectedCharacter
      else if c = '-' || c.isDigit || (!strict && c = '.') then
        parseNumber strict (c :: r)
      else .error .UnexpectedCharacter

/-- Modelled from the spec: object-member loop (spec §4.4), entered just past
`{`.  A trailing comma before `}` is an error in strict mode and accepted in
loose mode; a non-string key is `ExpectedStringKey`; a missing colon is
`ExpectedColon`. -/
def parseMembers (strict : Bool) :
    Nat → List Char → SeqSt → List (List Char × Value) → Except Err (Value × List Char)
  | 0, _, _, _ => .error .DepthExceeded
  | fuel + 1, s, st, acc =>
    match skipInsig strict s with
    | .error e => .error e
    | .ok [] => .error .UnexpectedEOF
    | .ok (c :: r) =>
      match st with
      | .afterValue =>
        if c = '\x7d' then .ok (.obj acc, r)
        else if c = ',' then parseMembers strict fuel r .awaitValue acc
        else .error .ExpectedComma
      | .awaitFirst =>
        if c = '\x7d' then .ok (.obj acc, r)
        else if c = '"' then
          match parseStringBody strict (r.length + 1) r with
          | .error e => .error e
          | .ok (k, r2) =>
            match skipInsig strict r2 with
            | .error e => .error e
            | .ok (':' :: r3) =>
              match parseValue strict fuel r3 with
              | .error e => .error e
              | .ok (v, r4) => parseMembers strict fuel r4 .afterValue (acc ++ [(k, v)])
            | .ok _ => .error .ExpectedColon
        else .error .ExpectedStringKey
      | .awaitValue =>
        if c = '\x7d' then
          if strict then .error .TrailingCommaInStrict else .ok (.obj acc, r)
        else if c = '"' then
          match parseStringBody strict (r.length + 1) r with
          | .error e => .error e
          | .ok (k, r2) =>
            match skipInsig strict r2 with
            | .error e => .error e
            | .ok (':' :: r3) =>
              match parseValue strict fuel r3 with
              | .error e => .error e
              | .ok (v, r4) => parseMembers strict fuel r4 .afterValue (acc ++ [(k, v)])
            | .ok _ => .error .ExpectedColon
        else .error .ExpectedStringKey

/-- Modelled from the spec: array-item loop (spec §4.4), entered just past
`[`.  A trailing comma before `]` is an error in strict mode and accepted in
loose mode; two consecutive commas surface as `UnexpectedCharacter` from the
value dispatcher. -/
def parseItems (strict : Bool) :
    Nat → List Char → SeqSt → List Value → Except Err (Value × List Char)
  | 0, _, _, _ => .error .DepthExceeded
  | fuel + 1, s, st, acc =>
    match skipInsig strict s with
    | .error e => .error e
    | .ok [] => .error .UnexpectedEOF
    | .ok (c :: r) =>
      match st with
      | .afterValue =>
        if c = ']' then .ok (.arr acc, r)
        else if c = ',' then parseItems strict fuel r .awaitValue acc
        else .error .ExpectedComma
      | .awaitFirst =>
        if c = ']' then .ok (.arr acc, r)
        else
          match parseValue strict fuel (c :: r) with
          | .error e => .error e
          | .ok (v, r2) => parseItems strict fuel r2 .afterValue (acc ++ [v])
      | .awaitValue =>
        if c = ']' then
          if strict then .error .TrailingCommaInStrict else .ok (.arr acc, r)
        else
          match parseValue strict fuel (c :: r) with
          | .error e => .error e
          | .ok (v, r2) => parseItems strict fuel r2 .afterValue (acc ++ [v])

end

/-- Modelled from the spec: `chjson.decode(text, strict=False)` (spec §6):
parse exactly one value, then require only insignificant input before EOF. -/
def decode (strict : Bool) (text : List Char) : Except Err Value :=
  match parseValue strict (text.length + 1) text with
  | .error e => .error e
  | .ok (v, rest) =>
    match skipInsig strict rest with
    | .error e => .error e
    | .ok [] => .ok v
    | .ok (_ :: _) => .error .TrailingGarbage

/-- Hex digit character (lowercase) for a value below 16. -/
def hexDigit (n : Nat) : Char :=
  if n < 10 then Char.ofNat (48 + n) else Char.ofNat (87 + n)

/-- Decimal digit character for a value below 10. -/
def digitChar (n : Nat) : Char :=
  Char.ofNat (48 + n)

/-- Decimal digits of a natural number, most significant first (fuelled;
fuel `n + 1` is always sufficient). -/
def natDigitsAux : Nat → Nat → List Char
  | 0, _ => []
  | f + 1, n =>
    if n < 10 then [digitChar n]
    else natDigitsAux f (n / 10) ++ [digitChar (n % 10)]

/-- Decimal digits of a natural number. -/
def natDigits (n : Nat) : List Char :=
  natDigitsAux (n + 1) n

/-- Decimal rendering of an integer. -/
def renderInt (n : Int) : List Char :=
  if n < 0 then '-' :: natDigits n.natAbs else natDigits n.natAbs

/-- Rendering of a model float `m * 10 ^ e` as a round-tripping decimal
(mantissa, `e`, exponent); stands in for the host's shortest round-trip
`repr`. -/
def renderFloat (m e : Int) : List Char :=
  renderInt m ++ 'e' :: renderInt e

/-- Modelled from the spec: the encoder's escape policy for one character
(spec §4.5): always escape the quote, backslash and solidus, short forms for
the named controls, `\u00XX` for the other controls, everything else passed
through (ensure-ASCII off, the default). -/
def escapeChar (c : Char) : List Char :=
  if c = '"' then ['\\', '"']
  else if c = '\\' then ['\\', '\\']
  else if c = '/' then ['\\', '/']
  else if c = '\x08' then ['\\', 'b']
  else if c = '\t' then ['\\', 't']
  else if c = '\n' then ['\\', 'n']
  else if c = '\x0C' then ['\\', 'f']
  else if c = '\r' then ['\\', 'r']
  else if c.toNat < 32 then
    ['\\', 'u', '0', '0', hexDigit (c.toNat / 16), hexDigit (c.toNat % 16)]
  else [c]

/-- Escape every character of a string body. -/
def escapeList : List Char → List Char
  | [] => []
  | c :: cs => escapeChar c ++ escapeList cs

/-- Encoded form of a string: quoted, body escaped. -/
def encodeString (s : List Char) : List Char :=
  '"' :: escapeList s ++ ['"']

mutual

/-- Modelled from the spec and tests: `chjson.encode` on host values
(spec §4.5).  Tuples are encoded exactly like lists
(`testWriteArrayOfSymbolsFromTuple`); the separators are `", "` and `": "`,
a space after and none before, as the test suite pins
(`testEncodeStringEscapes`, `testEncodeUnicodeStringLeader`). -/
def encodeHost : HostValue → List Char
  | .null => "null".toList
  | .bool true => "true".toList
  | .bool false => "false".toList
  | .int n => renderInt n
  | .float m e => renderFloat m e
  | .str s => encodeString s
  | .list xs => '[' :: encodeSeq xs ++ [']']
  | .tuple xs => '[' :: encodeSeq xs ++ [']']
  | .dict ms => '\x7b' :: encodeMembers ms ++ ['\x7d']

/-- Sequence items joined by `", "`. -/
def encodeSeq : List HostValue → List Char
  | [] => []
  | [x] => encodeHost x
  | x :: y :: xs => encodeHost x ++ ',' :: ' ' :: encodeSeq (y :: xs)

/-- Object members `key: value` joined by `", "`. -/
def encodeMembers : List (List Char × HostValue) → List Char
  | [] => []
  | [(k, v)] => encodeString k ++ ':' :: ' ' :: encodeHost v
  | (k, v) :: m :: ms =>
    encodeString k ++ ':' :: ' ' :: encodeHost v ++ ',' :: ' ' :: encodeMembers (m :: ms)

end

mutual

/-- The injection of decoded values into host values: arrays become lists. -/
def embed : Value → HostValue
  | .null => .null
  | .bool b => .bool b
  | .int n => .int n
  | .float m e => .float m e
  | .str s => .str s
  | .arr items => .list (embedList items)
  | .obj ms => .dict (embedMembers ms)

/-- `embed` on a list of values. -/
def embedList : List Value → List HostValue
  | [] => []
  | v :: vs => embed v :: embedList vs

/-- `embed` on object members. -/
def embedMembers : List (List Char × Value) → List (List Char × HostValue)
  | [] => []
  | (k, v) :: ms => (k, embed v) :: embedMembers ms

end

/-- `chjson.encode` on a model value. -/
def encode (v : Value) : List Char :=
  encodeHost (embed v)

/-- Well-formed model values: every float is in canonical form (which is how
both the decoder and the host produce them); all other variants are
unconstrained. -/
inductive WF : Value → Prop
  | null : WF .null
  | bool (b : Bool) : WF (.bool b)
  | int (n : Int) : WF (.int n)
  | float (m e : Int) (h0 : m = 0 → e = 0) (h10 : m ≠ 0 → ¬(10:Int) ∣ m) :
      WF (.float m e)
  | str (s : List Char) : WF (.str s)
  | arr (items : List Value) (h : ∀ v ∈ items, WF v) : WF (.arr items)
  | obj (ms : List (List Char × Value)) (h : ∀ kv ∈ ms, WF kv.2) : WF (.obj ms)

/-- The test suites' `_removeWhitespace`: drop space characters. -/
def removeSpaces (s : List Char) : List Char :=
  s.filter (fun c => c ≠ ' ')

/-- A character the string reader passes through unchanged: not the closing
quote, not an escape introducer, not a rejected literal line terminator. -/
def PlainCh (c : Char) : Prop :=
  c ≠ '"' ∧ c ≠ '\\' ∧ c ≠ '\n' ∧ c ≠ '\r'

/-- The characters recognized after a backslash (spec §4.2): the escape
introducers of both modes, plus the line terminators in loose mode. -/
def EscIntro (strict : Bool) (c : Char) : Prop :=
  c = '"' ∨ c = '\\' ∨ c = '/' ∨ c = 'b' ∨ c = 'f' ∨ c = 'n' ∨ c = 'r' ∨ c = 't' ∨
    c = 'u' ∨ (strict = false ∧ (c = '\n' ∨ c = '\r'))

/-- Continuations that can legitimately follow an encoded value: nothing, or
a separator/closer.  (Used to state that number literals are delimited.) -/
def SepHead : List Char → Prop
  | [] => True
  | c :: _ => c = ',' ∨ c = ']' ∨ c = '\x7d'

/-! ### Lemmas about the scanner -/

theorem skipInsig_nil (strict : Bool) : skipInsig strict [] = .ok [] := rfl

theorem skipInsig_not_ws (strict : Bool) (c : Char) (s : List Char)
    (hw : isWs c = false) (hs : c ≠ '/') :
    skipInsig strict (c :: s) = .ok (c :: s) := by
  rw [skipInsig, skipInsigAux.eq_def]
  cases strict <;> simp [hw, hs]

theorem skipInsig_ws (strict : Bool) (c : Char) (s : List Char) (hw : isWs c = true) :
    skipInsig strict (c :: s) = skipInsig strict s := by
  rw [skipInsig, skipInsigAux.eq_def]
  simp [hw]
  rfl

/-! ### Lemmas about the string reader -/

theorem consFst_error (c : Char) (e : Err) :
    consFst c (.error e) = .error e := rfl

theorem consFst_ok (c : Char) (p : List Char × List Char) :
    consFst c (.ok p) = .ok (c :: p.1, p.2) := rfl

theorem stringStep_close (strict : Bool) (cs : List Char) :
    stringStep strict ('"' :: cs) = .done cs := rfl

theorem stringStep_plain (strict : Bool) (c : Char) (cs : List Char)
    (h1 : c ≠ '"') (h2 : c ≠ '\\') (h3 : c ≠ '\n') (h4 : c ≠ '\r') :
    stringStep strict (c :: cs) = .emit c cs := by
  rw [stringStep.eq_def]
  simp [h1, h2, h3, h4]

theorem stringStep_esc_quote (strict : Bool) (a : Char) (cs : List Char) :
    stringStep strict ('\\' :: '"' :: a :: cs) = .emit '"' (a :: cs) := rfl

theorem stringStep_esc_backslash (strict : Bool) (cs : List Char) :
    stringStep strict ('\\' :: '\\' :: cs) = .emit '\\' cs := rfl

theorem stringStep_esc_slash (strict : Bool) (cs : List Char) :
    stringStep strict ('\\' :: '/' :: cs) = .emit '/' cs := rfl

theorem stringStep_esc_b (strict : Bool) (cs : List Char) :
    stringStep strict ('\\' :: 'b' :: cs) = .emit '\x08' cs := rfl

theorem stringStep_esc_f (strict : Bool) (cs : List Char) :
    stringStep strict ('\\' :: 'f' :: cs) = .emit '\x0C' cs := rfl

theorem stringStep_esc_n (strict : Bool) (cs : List Char) :
    stringStep strict ('\\' :: 'n' :: cs) = .emit '\n' cs := rfl

theorem stringStep_esc_r (strict : Bool) (cs : List Char) :
    stringStep strict ('\\' :: 'r' :: cs) = .emit '\r' cs := rfl

theorem stringStep_esc_t (strict : Bool) (cs : List Char) :
    stringStep strict ('\\' :: 't' :: cs) = .emit '\t' cs := rfl

theorem stringStep_esc_u (strict : Bool) (h1 h2 h3 h4 : Char) (cs : List Char)
    (a b c1 d1 : Nat)
    (e1 : hexVal h1 = some a) (e2 : hexVal h2 = some b)
    (e3 : hexVal h3 = some c1) (e4 : hexVal h4 = some d1)
    (hn1 : ¬(0xD800 ≤ ((a * 16 + b) * 16 + c1) * 16 + d1 ∧
        ((a * 16 + b) * 16 + c1) * 16 + d1 ≤ 0xDBFF))
    (hn2 : ¬(0xDC00 ≤ ((a * 16 + b) * 16 + c1) * 16 + d1 ∧
        ((a * 16 + b) * 16 + c1) * 16 + d1 ≤ 0xDFFF)) :
    stringStep strict ('\\' :: 'u' :: h1 :: h2 :: h3 :: h4 :: cs)
      = .emit (Char.ofNat (((a * 16 + b) * 16 + c1) * 16 + d1)) cs := by
  rw [stringStep.eq_def]
  simp [e1, e2, e3, e4, hn1, hn2]

theorem stringStep_lf_loose (cs : List Char) :
    stringStep false ('\\' :: '\n' :: cs) = .drop cs := rfl

theorem stringStep_lf_strict (cs : List Char) :
    stringStep true ('\\' :: '\n' :: cs) = .fail .InvalidEscape := rfl

theorem stringStep_crlf_loose (cs : List Char) :
    stringStep false ('\\' :: '\r' :: '\n' :: cs) = .drop cs := rfl

theorem stringStep_crlf_strict (cs : List Char) :
    stringStep true ('\\' :: '\r' :: '\n' :: cs) = .fail .InvalidEscape := rfl

theorem stringStep_cr_loose (cs : List Char) (h : cs.head? ≠ some '\n') :
    stringStep false ('\\' :: '\r' :: cs) = .drop cs := by
  match cs with
  | [] => rfl
  | a :: t =>
    have ha : a ≠ '\n' := by simpa using h
    rw [stringStep.eq_def]
    simp [ha]

theorem stringStep_cr_strict (cs : List Char) :
    stringStep true ('\\' :: '\r' :: cs) = .fail .InvalidEscape := by
  match cs with
  | [] => rfl
  | a :: t =>
    by_cases ha : a = '\n'
    · subst ha; rfl
    · rw [stringStep.eq_def]
      simp [ha]

theorem stringStep_literal_lf (strict : Bool) (cs : List Char) :
    stringStep strict ('\n' :: cs) = .fail .InvalidControlCharInString := rfl

theorem stringStep_literal_cr (strict : Bool) (cs : List Char) :
    stringStep strict ('\r' :: cs) = .fail .InvalidControlCharInString := rfl

set_option maxHeartbeats 1600000 in
theorem stringStep_bad_escape (strict : Bool) (e : Char) (cs : List Char)
    (h : ¬EscIntro strict e) :
    stringStep strict ('\\' :: e :: cs) = .fail .InvalidEscape := by
  rw [EscIntro] at h
  push_neg at h
  obtain ⟨hq, hbs, hsl, hb, hf, hn, hr, ht, hu, hlt⟩ := h
  have hstrict : (e = '\n' ∨ e = '\r') → strict = true := by
    intro hx
    by_contra hne
    have hfalse : strict = false := by
      cases strict
      · rfl
      · exact absurd rfl hne
    rcases hx with hx | hx
    · exact (hlt hfalse).1 hx
    · exact (hlt hfalse).2 hx
  rw [stringStep.eq_def]
  split
  · simp_all
  · rename_i x9 chead ctail heq0
    injection heq0 with hh0 ht0
    rw [← hh0, ← ht0]
    rw [if_neg (by decide : ¬('\\' : Char) = '"'), if_pos (rfl : ('\\' : Char) = '\\')]
    split
    all_goals
      first
        | rfl
        | (rename_i heq
           first
             | (simp at heq
                done)
             | (rw [List.cons.injEq] at heq
                obtain ⟨he2, hcs2⟩ := heq
                first
                  | exact absurd he2 hq
                  | exact absurd he2 hbs
                  | exact absurd he2 hsl
                  | exact absurd he2 hb
                  | exact absurd he2 hf
                  | exact absurd he2 hn
                  | exact absurd he2 hr
                  | exact absurd he2 ht
                  | exact absurd he2 hu
                  | (rw [hstrict (Or.inl he2)]
                     simp)
                  | (rw [hstrict (Or.inr he2)]
                     simp)))

theorem psb_step_done (strict : Bool) (f : Nat) (s rest : List Char)
    (h : stringStep strict s = .done rest) :
    parseStringBody strict (f + 1) s = .ok ([], rest) := by
  simp only [parseStringBody, h]

theorem psb_step_emit (strict : Bool) (f : Nat) (s rest : List Char) (c : Char)
    (h : stringStep strict s = .emit c rest) :
    parseStringBody strict (f + 1) s = consFst c (parseStringBody strict f rest) := by
  simp only [parseStringBody, h]

theorem psb_step_drop (strict : Bool) (f : Nat) (s rest : List Char)
    (h : stringStep strict s = .drop rest) :
    parseStringBody strict (f + 1) s = parseStringBody strict f rest := by
  simp only [parseStringBody, h]

theorem psb_step_fail (strict : Bool) (f : Nat) (s : List Char) (e : Err)
    (h : stringStep strict s = .fail e) :
    parseStringBody strict (f + 1) s = .error e := by
  simp only [parseStringBody, h]

theorem hexVal_hexDigit : ∀ k, k < 16 → hexVal (hexDigit k) = some k := by decide

theorem escapeChar_ne_nil (c : Char) : escapeChar c ≠ [] := by
  rw [escapeChar]
  split_ifs <;> simp

/-- Parsing the escaped form of one character consumes one reader step and
produces that character (given a nonempty continuation). -/
theorem psb_escapeChar (strict : Bool) (c : Char) (T : List Char) (g : Nat) (hT : T ≠ []) :
    parseStringBody strict (g + 1) (escapeChar c ++ T)
      = consFst c (parseStringBody strict g T) := by
  rw [escapeChar]
  split_ifs with h1 h2 h3 h4 h5 h6 h7 h8 h9
  · subst h1
    obtain ⟨a, t, rfl⟩ := List.exists_cons_of_ne_nil hT
    exact psb_step_emit _ _ _ _ _ (stringStep_esc_quote strict a t)
  · subst h2
    exact psb_step_emit _ _ _ _ _ (stringStep_esc_backslash strict T)
  · subst h3
    exact psb_step_emit _ _ _ _ _ (stringStep_esc_slash strict T)
  · subst h4
    exact psb_step_emit _ _ _ _ _ (stringStep_esc_b strict T)
  · subst h5
    exact psb_step_emit _ _ _ _ _ (stringStep_esc_t strict T)
  · subst h6
    exact psb_step_emit _ _ _ _ _ (stringStep_esc_n strict T)
  · subst h7
    exact psb_step_emit _ _ _ _ _ (stringStep_esc_f strict T)
  · subst h8
    exact psb_step_emit _ _ _ _ _ (stringStep_esc_r strict T)
  · have hs := stringStep_esc_u strict '0' '0' (hexDigit (c.toNat / 16))
      (hexDigit (c.toNat % 16)) T 0 0 (c.toNat / 16) (c.toNat % 16)
      (by decide) (by decide)
      (hexVal_hexDigit _ (by omega)) (hexVal_hexDigit _ (by omega))
      (by omega) (by omega)
    have hn : ((0 * 16 + 0) * 16 + c.toNat / 16) * 16 + c.toNat % 16 = c.toNat := by omega
    rw [hn, Char.ofNat_toNat] at hs
    exact psb_step_emit _ _ _ _ _ hs
  · exact psb_step_emit _ _ _ _ _ (stringStep_plain strict c T h1 h2 h6 h8)

/-- Round trip of the string reader: parsing the escaped form of a string
body followed by the closing quote recovers the body exactly. -/
theorem psb_escapeList (strict : Bool) :
    ∀ (k rest : List Char) (f : Nat), (escapeList k).length < f →
      parseStringBody strict f (escapeList k ++ '"' :: rest) = .ok (k, rest) := by
  intro k
  induction k with
  | nil =>
    intro rest f hf
    obtain ⟨g, rfl⟩ : ∃ g, f = g + 1 := ⟨f - 1, by omega⟩
    rw [escapeList, List.nil_append]
    exact psb_step_done _ _ _ _ (stringStep_close strict rest)
  | cons c k ih =>
    intro rest f hf
    have hlen : (escapeList (c :: k)).length
        = (escapeChar c).length + (escapeList k).length := by
      rw [escapeList, List.length_append]
    have hcpos : 0 < (escapeChar c).length :=
      List.length_pos.mpr (escapeChar_ne_nil c)
    obtain ⟨g, rfl⟩ : ∃ g, f = g + 1 := ⟨f - 1, by omega⟩
    rw [escapeList, List.append_assoc]
    rw [psb_escapeChar strict c _ g (by simp)]
    rw [ih rest g (by omega)]
    rfl

/-- A backslash followed by an unrecognized character fails with
`InvalidEscape`, through any prefix of plain characters. -/
theorem psb_bad_escape_run (strict : Bool) (e : Char) (cs : List Char)
    (he : ¬EscIntro strict e) :
    ∀ (p : List Char) (f : Nat), (∀ a ∈ p, PlainCh a) → p.length < f →
      parseStringBody strict f (p ++ '\\' :: e :: cs) = .error .InvalidEscape := by
  intro p
  induction p with
  | nil =>
    intro f hp hf
    obtain ⟨g, rfl⟩ : ∃ g, f = g + 1 := ⟨f - 1, by omega⟩
    rw [List.nil_append]
    exact psb_step_fail _ _ _ _ (stringStep_bad_escape strict e cs he)
  | cons a p ih =>
    intro f hp hf
    obtain ⟨g, rfl⟩ : ∃ g, f = g + 1 := ⟨f - 1, by omega⟩
    obtain ⟨ha1, ha2, ha3, ha4⟩ := hp a (by simp)
    rw [List.cons_append]
    rw [psb_step_emit _ _ _ _ _ (stringStep_plain strict a _ ha1 ha2 ha3 ha4)]
    rw [ih g (fun x hx => hp x (by simp [hx])) (by simp at hf; omega)]
    rfl

/-- An unescaped literal LF or CR fails with `InvalidControlCharInString`,
through any prefix of plain characters. -/
theorem psb_literal_newline_run (strict : Bool) (c0 : Char) (cs : List Char)
    (hc : c0 = '\n' ∨ c0 = '\r') :
    ∀ (p : List Char) (f : Nat), (∀ a ∈ p, PlainCh a) → p.length < f →
      parseStringBody strict f (p ++ c0 :: cs) = .error .InvalidControlCharInString := by
  intro p
  induction p with
  | nil =>
    intro f hp hf
    obtain ⟨g, rfl⟩ : ∃ g, f = g + 1 := ⟨f - 1, by omega⟩
    rw [List.nil_append]
    rcases hc with hc | hc <;> subst hc
    · exact psb_step_fail _ _ _ _ (stringStep_literal_lf strict cs)
    · exact psb_step_fail _ _ _ _ (stringStep_literal_cr strict cs)
  | cons a p ih =>
    intro f hp hf
    obtain ⟨g, rfl⟩ : ∃ g, f = g + 1 := ⟨f - 1, by omega⟩
    obtain ⟨ha1, ha2, ha3, ha4⟩ := hp a (by simp)
    rw [List.cons_append]
    rw [psb_step_emit _ _ _ _ _ (stringStep_plain strict a _ ha1 ha2 ha3 ha4)]
    rw [ih g (fun x hx => hp x (by simp [hx])) (by simp at hf; omega)]
    rfl

/-- Loose mode: `\` before LF is a line continuation (dropped entirely). -/
theorem psb_line_continuation_lf (f : Nat) (rest : List Char) :
    parseStringBody false (f + 1) ('\\' :: '\n' :: rest) = parseStringBody false f rest :=
  psb_step_drop _ _ _ _ (stringStep_lf_loose rest)

/-- Loose mode: `\` before CR LF is a line continuation (dropped entirely). -/
theorem psb_line_continuation_crlf (f : Nat) (rest : List Char) :
    parseStringBody false (f + 1) ('\\' :: '\r' :: '\n' :: rest)
      = parseStringBody false f rest :=
  psb_step_drop _ _ _ _ (stringStep_crlf_loose rest)

/-- Loose mode: `\` before a CR not followed by LF is a line continuation. -/
theorem psb_line_continuation_cr (f : Nat) (rest : List Char)
    (h : rest.head? ≠ some '\n') :
    parseStringBody false (f + 1) ('\\' :: '\r' :: rest) = parseStringBody false f rest :=
  psb_step_drop _ _ _ _ (stringStep_cr_loose rest h)

/-- Strict mode: `\` before LF is an invalid escape. -/
theorem psb_line_continuation_lf_strict (f : Nat) (rest : List Char) :
    parseStringBody true (f + 1) ('\\' :: '\n' :: rest) = .error .InvalidEscape :=
  psb_step_fail _ _ _ _ (stringStep_lf_strict rest)

/-- Strict mode: `\` before CR is an invalid escape. -/
theorem psb_line_continuation_cr_strict (f : Nat) (rest : List Char) :
    parseStringBody true (f + 1) ('\\' :: '\r' :: rest) = .error .InvalidEscape :=
  psb_step_fail _ _ _ _ (stringStep_cr_strict rest)

/-! ### Lemmas about digits and the number reader -/

theorem digitChar_isDigit : ∀ k, k < 10 → (digitChar k).isDigit = true := by decide

theorem digitChar_toNat : ∀ k, k < 10 → (digitChar k).toNat = 48 + k := by decide

theorem digitChar_ne_zero : ∀ k, k < 10 → 0 < k → digitChar k ≠ '0' := by decide

theorem digitsToNat_nil : digitsToNat [] = 0 := rfl

theorem digitsToNat_append_digit (ds : List Char) (c : Char) :
    digitsToNat (ds ++ [c]) = 10 * digitsToNat ds + (c.toNat - 48) := by
  rw [digitsToNat, digitsToNat, List.foldl_append]
  rfl

/-- The decimal digit renderer is correct: its output is nonempty, consists
of digits, has no leading zero unless it is exactly `"0"`, and evaluates back
to the rendered number. -/
theorem natDigitsAux_spec : ∀ (f n : Nat), n < f →
    (∀ c ∈ natDigitsAux f n, c.isDigit = true) ∧
    digitsToNat (natDigitsAux f n) = n ∧
    ((n = 0 ∧ natDigitsAux f n = ['0']) ∨
      (0 < n ∧ ∃ d t, 0 < d ∧ d < 10 ∧ natDigitsAux f n = digitChar d :: t)) := by
  intro f
  induction f with
  | zero => intro n hn; omega
  | succ f ih =>
    intro n hn
    by_cases h10 : n < 10
    · rw [natDigitsAux]
      rw [if_pos h10]
      refine ⟨by simpa using digitChar_isDigit n h10, ?_, ?_⟩
      · show digitsToNat ([] ++ [digitChar n]) = n
        rw [digitsToNat_append_digit, digitsToNat_nil, digitChar_toNat n h10]
        omega
      · by_cases h0 : n = 0
        · subst h0; left; exact ⟨rfl, rfl⟩
        · right
          exact ⟨by omega, n, [], by omega, h10, rfl⟩
    · have hdiv : n / 10 < f := by omega
      have hdiv0 : 0 < n / 10 := by omega
      obtain ⟨hdig, hval, hshape⟩ := ih (n / 10) hdiv
      rw [natDigitsAux, if_neg h10]
      refine ⟨?_, ?_, ?_⟩
      · intro c hc
        rw [List.mem_append] at hc
        rcases hc with hc | hc
        · exact hdig c hc
        · simp at hc
          subst hc
          exact digitChar_isDigit _ (by omega)
      · rw [digitsToNat_append_digit, hval, digitChar_toNat _ (by omega)]
        omega
      · right
        refine ⟨by omega, ?_⟩
        rcases hshape with ⟨h0, _⟩ | ⟨_, d, t, hd0, hd10, heq⟩
        · omega
        · exact ⟨d, t ++ [digitChar (n % 10)], hd0, hd10, by rw [heq]; rfl⟩

theorem natDigits_spec (n : Nat) :
    (∀ c ∈ natDigits n, c.isDigit = true) ∧
    digitsToNat (natDigits n) = n ∧
    ((n = 0 ∧ natDigits n = ['0']) ∨
      (0 < n ∧ ∃ d t, 0 < d ∧ d < 10 ∧ natDigits n = digitChar d :: t)) :=
  natDigitsAux_spec (n + 1) n (by omega)

theorem takeDigits_append : ∀ (ds rest : List Char),
    (∀ c ∈ ds, c.isDigit = true) →
    (∀ c, rest.head? = some c → c.isDigit = false) →
    takeDigits (ds ++ rest) = (ds, rest) := by
  intro ds
  induction ds with
  | nil =>
    intro rest _ hrest
    rw [List.nil_append]
    cases rest with
    | nil => rfl
    | cons c t =>
      rw [takeDigits, if_neg (by simp [hrest c rfl])]
  | cons d ds ih =>
    intro rest hds hrest
    rw [List.cons_append, takeDigits, if_pos (hds d (by simp))]
    rw [ih rest (fun c hc => hds c (by simp [hc])) hrest]

theorem canonAux_stop (f : Nat) (m : Nat) (e : Int) (hm : ¬(m ≠ 0 ∧ m % 10 = 0)) :
    canonAux f m e = (m, e) := by
  cases f with
  | zero => rfl
  | succ f => rw [canonAux, if_neg hm]

theorem parseFracPart_no (s : List Char) (h : s.head? ≠ some '.') :
    parseFracPart s = .ok (none, s) := by
  rw [parseFracPart, if_neg h]

theorem parseExpPart_no (s : List Char) (h1 : s.head? ≠ some 'e') (h2 : s.head? ≠ some 'E') :
    parseExpPart s = .ok (none, s) := by
  rw [parseExpPart, if_neg (by simp [h1, h2])]

/-- Heads that can follow an encoded number: end of input or a separator. -/
theorem sepHead_facts (rest : List Char) (h : SepHead rest) :
    ∀ c, rest.head? = some c →
      c.isDigit = false ∧ c ≠ '.' ∧ c ≠ 'e' ∧ c ≠ 'E' ∧ c ≠ '-' := by
  intro c hc
  cases rest with
  | nil => simp at hc
  | cons a t =>
    simp at hc
    subst hc
    rcases h with h | h | h <;> subst h <;> refine ⟨by decide, by decide, by decide, by decide, by decide⟩

/-- Parsing the rendered form of an integer recovers it exactly. -/
theorem parseNumber_renderInt (strict : Bool) (n : Int) (rest : List Char)
    (hrest : SepHead rest) :
    parseNumber strict (renderInt n ++ rest) = .ok (.int n, rest) := by
  have hfacts := sepHead_facts rest hrest
  have hnd : ∀ c, rest.head? = some c → c.isDigit = false :=
    fun c hc => (hfacts c hc).1
  obtain ⟨hdig, hval, hshape⟩ := natDigits_spec n.natAbs
  have htake : takeDigits (natDigits n.natAbs ++ rest) = (natDigits n.natAbs, rest) :=
    takeDigits_append _ _ hdig hnd
  have hcons : ∃ c0 t0, natDigits n.natAbs = c0 :: t0 ∧ c0 ≠ '-' ∧
      ¬(1 < (natDigits n.natAbs).length ∧ (natDigits n.natAbs).head? = some '0') := by
    rcases hshape with ⟨h0, heq⟩ | ⟨hpos, d, t, hd0, hd10, heq⟩
    · exact ⟨'0', [], heq, by decide, by rw [heq]; simp⟩
    · refine ⟨digitChar d, t, heq, ?_, ?_⟩
      · have hdt := digitChar_toNat d (by omega)
        intro hcontra
        rw [hcontra] at hdt
        simp at hdt
        omega
      · rw [heq]
        simp [digitChar_ne_zero d hd10 hd0]
  obtain ⟨c0, t0, hc0, hc0m, hnolead⟩ := hcons
  have hdot : rest.head? ≠ some '.' := fun hc => absurd rfl (hfacts '.' hc).2.1
  have he1 : rest.head? ≠ some 'e' := fun hc => absurd rfl (hfacts 'e' hc).2.2.1
  have he2 : rest.head? ≠ some 'E' := fun hc => absurd rfl (hfacts 'E' hc).2.2.2.1
  have hbody : ∀ neg : Bool, parseNumBody strict neg (natDigits n.natAbs ++ rest)
      = .ok (.int (if neg then -(n.natAbs : Int) else (n.natAbs : Int)), rest) := by
    intro neg
    simp only [parseNumBody, htake]
    rw [if_neg (by rw [hc0]; simp)]
    rw [if_neg hnolead]
    simp only [finishNumber, parseFracPart_no rest hdot, parseExpPart_no rest he1 he2]
    rw [if_neg hdot]
    simp [hval]
  by_cases hneg : n < 0
  · rw [renderInt, if_pos hneg, List.cons_append, parseNumber]
    rw [if_pos (show ('-' :: (natDigits n.natAbs ++ rest)).head? = some '-' by simp)]
    rw [List.tail_cons]
    rw [hbody true]
    have h1 : ((n.natAbs : Int)) = -n := Int.ofNat_natAbs_of_nonpos (le_of_lt hneg)
    rw [h1, neg_neg]
    simp
  · rw [renderInt, if_neg hneg, parseNumber]
    rw [if_neg (show ¬((natDigits n.natAbs ++ rest).head? = some '-') by
      rw [hc0]; simp [hc0m])]
    rw [hbody false]
    rw [Int.natAbs_of_nonneg (Int.not_lt.mp hneg)]
    simp

theorem isDigit_ne (c L : Char) (hL : L.isDigit = false) (h : c.isDigit = true) : c ≠ L := by
  intro hEq
  subst hEq
  rw [h] at hL
  simp at hL

/-- The head of a rendered natural number is a digit. -/
theorem natDigits_head_digit (M : Nat) :
    ∃ c0 t0, natDigits M = c0 :: t0 ∧ c0.isDigit = true := by
  obtain ⟨hdig, _, hshape⟩ := natDigits_spec M
  rcases hshape with ⟨_, heq⟩ | ⟨_, d, t, _, hd10, heq⟩
  · exact ⟨'0', [], heq, by decide⟩
  · exact ⟨digitChar d, t, heq, digitChar_isDigit d hd10⟩

/-- Dispatching the sign of a rendered integer literal. -/
theorem parseNumber_renderInt_split (strict : Bool) (m : Int) (X : List Char) :
    parseNumber strict (renderInt m ++ X)
      = if m < 0 then parseNumBody strict true (natDigits m.natAbs ++ X)
        else parseNumBody strict false (natDigits m.natAbs ++ X) := by
  by_cases hneg : m < 0
  · rw [if_pos hneg, renderInt, if_pos hneg, List.cons_append, parseNumber]
    rw [if_pos (show ('-' :: (natDigits m.natAbs ++ X)).head? = some '-' by simp)]
    rw [List.tail_cons]
  · rw [if_neg hneg, renderInt, if_neg hneg, parseNumber]
    obtain ⟨c0, t0, hc0, hc0d⟩ := natDigits_head_digit m.natAbs
    rw [if_neg (show ¬((natDigits m.natAbs ++ X).head? = some '-') by
      rw [hc0]; simp [isDigit_ne c0 '-' (by decide) hc0d])]

/-- The number body on rendered digits reduces to `finishNumber`. -/
theorem parseNumBody_digits (strict : Bool) (neg : Bool) (M : Nat) (X : List Char)
    (hX : ∀ c, X.head? = some c → c.isDigit = false) :
    parseNumBody strict neg (natDigits M ++ X) = finishNumber neg (natDigits M) X := by
  obtain ⟨hdig, hval, hshape⟩ := natDigits_spec M
  have htake := takeDigits_append _ X hdig hX
  have hne : natDigits M ≠ [] := by
    rcases hshape with ⟨_, heq⟩ | ⟨_, d, t, _, _, heq⟩ <;> simp [heq]
  have hnolead : ¬(1 < (natDigits M).length ∧ (natDigits M).head? = some '0') := by
    rcases hshape with ⟨_, heq⟩ | ⟨_, d, t, hd0, hd10, heq⟩
    · rw [heq]; simp
    · rw [heq]; simp [digitChar_ne_zero d hd10 hd0]
  simp only [parseNumBody, htake]
  rw [if_neg hne, if_neg hnolead]

/-- Parsing the rendered exponent (`e` followed by a rendered integer)
recovers the exponent. -/
theorem parseExpPart_renderInt (e : Int) (rest : List Char) (hrest : SepHead rest) :
    parseExpPart ('e' :: (renderInt e ++ rest)) = .ok (some e, rest) := by
  have hfacts := sepHead_facts rest hrest
  have hnd : ∀ c, rest.head? = some c → c.isDigit = false := fun c hc => (hfacts c hc).1
  obtain ⟨hdig, hval, hshape⟩ := natDigits_spec e.natAbs
  have htake := takeDigits_append _ rest hdig hnd
  have hne : natDigits e.natAbs ≠ [] := by
    rcases hshape with ⟨_, heq⟩ | ⟨_, d, t, _, _, heq⟩ <;> simp [heq]
  rw [parseExpPart, if_pos (Or.inl (by simp))]
  simp only [List.tail_cons]
  by_cases hneg : e < 0
  · rw [renderInt, if_pos hneg, List.cons_append]
    rw [if_pos (show ('-' :: (natDigits e.natAbs ++ rest)).head? = some '-' by simp)]
    simp only [List.tail_cons]
    simp only [parseExpDigits, htake]
    rw [if_neg hne, hval]
    have h1 : ((e.natAbs : Int)) = -e := Int.ofNat_natAbs_of_nonpos (le_of_lt hneg)
    rw [h1, neg_neg]
    simp
  · obtain ⟨c0, t0, hc0, hc0d⟩ := natDigits_head_digit e.natAbs
    rw [renderInt, if_neg hneg]
    rw [if_neg (show ¬((natDigits e.natAbs ++ rest).head? = some '-') by
      rw [hc0]; simp [isDigit_ne c0 '-' (by decide) hc0d])]
    rw [if_neg (show ¬((natDigits e.natAbs ++ rest).head? = some '+') by
      rw [hc0]; simp [isDigit_ne c0 '+' (by decide) hc0d])]
    simp only [parseExpDigits, htake]
    rw [if_neg hne, hval, Int.natAbs_of_nonneg (Int.not_lt.mp hneg)]
    simp

/-- Parsing the rendered form of a canonical float recovers it exactly. -/
theorem parseNumber_renderFloat (strict : Bool) (m e : Int) (rest : List Char)
    (h0 : m = 0 → e = 0) (h10 : m ≠ 0 → ¬(10:Int) ∣ m) (hrest : SepHead rest) :
    parseNumber strict (renderFloat m e ++ rest) = .ok (.float m e, rest) := by
  have hfacts := sepHead_facts rest hrest
  have hshaped : renderFloat m e ++ rest = renderInt m ++ ('e' :: (renderInt e ++ rest)) := by
    rw [renderFloat, List.append_assoc]
    rfl
  have hXnd : ∀ c, ('e' :: (renderInt e ++ rest)).head? = some c → c.isDigit = false := by
    intro c hc
    simp at hc
    subst hc
    decide
  have hfin : ∀ neg M, finishNumber neg (natDigits M) ('e' :: (renderInt e ++ rest))
      = .ok (mkFloat neg M e, rest) := by
    intro neg M
    obtain ⟨_, hval, _⟩ := natDigits_spec M
    simp only [finishNumber,
      parseFracPart_no ('e' :: (renderInt e ++ rest)) (by simp),
      parseExpPart_renderInt e rest hrest]
    rw [if_neg (fun hc => absurd rfl (hfacts '.' hc).2.1)]
    rw [if_neg (by simp)]
    simp [hval]
  have hmk : ∀ neg : Bool, (neg = true ↔ m < 0) → mkFloat neg m.natAbs e = .float m e := by
    intro neg hni
    by_cases hm0 : m = 0
    · subst hm0
      rw [h0 rfl]
      simp [mkFloat]
    · have habs0 : m.natAbs ≠ 0 := by simpa using hm0
      have hmod : ¬(10 ∣ m.natAbs) := by
        intro hdvd
        apply h10 hm0
        exact Int.natAbs_dvd_natAbs.mp (by simpa using hdvd)
      have hmod2 : m.natAbs % 10 ≠ 0 := fun hc => hmod (Nat.dvd_of_mod_eq_zero hc)
      simp only [mkFloat, if_neg habs0, canonAux_stop m.natAbs m.natAbs e (by simp [hmod2])]
      cases neg
      · have hnlt : ¬m < 0 := fun h => by simpa using hni.mpr h
        simp [Int.natAbs_of_nonneg (Int.not_lt.mp hnlt)]
      · have hlt : m < 0 := hni.mp rfl
        have h1 : ((m.natAbs : Int)) = -m := Int.ofNat_natAbs_of_nonpos (le_of_lt hlt)
        simp [h1]
  rw [hshaped, parseNumber_renderInt_split]
  by_cases hneg : m < 0
  · rw [if_pos hneg, parseNumBody_digits _ _ _ _ hXnd, hfin, hmk true (by simp [hneg])]
  · rw [if_neg hneg, parseNumBody_digits _ _ _ _ hXnd, hfin, hmk false (by simp [hneg])]


/-! ### Step lemmas for the value parser (loose mode, literal heads) -/

theorem parseValue_null (g : Nat) (rest : List Char) :
    parseValue false (g + 1) ('n' :: 'u' :: 'l' :: 'l' :: rest) = .ok (.null, rest) := by
  simp only [parseValue, skipInsig_not_ws false 'n' _ (by decide) (by decide)]
  simp

theorem parseValue_true (g : Nat) (rest : List Char) :
    parseValue false (g + 1) ('t' :: 'r' :: 'u' :: 'e' :: rest) = .ok (.bool true, rest) := by
  simp only [parseValue, skipInsig_not_ws false 't' _ (by decide) (by decide)]
  simp

theorem parseValue_false (g : Nat) (rest : List Char) :
    parseValue false (g + 1) ('f' :: 'a' :: 'l' :: 's' :: 'e' :: rest)
      = .ok (.bool false, rest) := by
  simp only [parseValue, skipInsig_not_ws false 'f' _ (by decide) (by decide)]
  simp

theorem parseValue_obj_open (g : Nat) (r : List Char) :
    parseValue false (g + 1) ('\x7b' :: r) = parseMembers false g r .awaitFirst [] := by
  simp only [parseValue, skipInsig_not_ws false '\x7b' r (by decide) (by decide)]
  simp

theorem parseValue_arr_open (g : Nat) (r : List Char) :
    parseValue false (g + 1) ('[' :: r) = parseItems false g r .awaitFirst [] := by
  simp only [parseValue, skipInsig_not_ws false '[' r (by decide) (by decide)]
  simp

theorem parseValue_string (g : Nat) (r k rest : List Char)
    (h : parseStringBody false (r.length + 1) r = .ok (k, rest)) :
    parseValue false (g + 1) ('"' :: r) = .ok (.str k, rest) := by
  have hstep : parseValue false (g + 1) ('"' :: r)
      = (match parseStringBody false (r.length + 1) r with
         | .error e => .error e
         | .ok (cs, rest) => .ok (.str cs, rest)) := by
    simp only [parseValue, skipInsig_not_ws false '"' r (by decide) (by decide)]
    simp
  rw [hstep, h]

theorem parseValue_minus (g : Nat) (r : List Char) :
    parseValue false (g + 1) ('-' :: r) = parseNumber false ('-' :: r) := by
  simp only [parseValue, skipInsig_not_ws false '-' r (by decide) (by decide)]
  simp

theorem isDigit_not_special (c : Char) (h : c.isDigit = true) :
    isWs c = false ∧ c ≠ '/' ∧ c ≠ ']' := by
  refine ⟨?_, isDigit_ne c '/' (by decide) h, isDigit_ne c ']' (by decide) h⟩
  rw [isWs]
  simp [isDigit_ne c ' ' (by decide) h, isDigit_ne c '\t' (by decide) h,
    isDigit_ne c '\n' (by decide) h, isDigit_ne c '\r' (by decide) h]

theorem parseValue_digit (g : Nat) (c : Char) (r : List Char) (hd : c.isDigit = true) :
    parseValue false (g + 1) (c :: r) = parseNumber false (c :: r) := by
  obtain ⟨hw, hs, _⟩ := isDigit_not_special c hd
  simp only [parseValue, skipInsig_not_ws false c r hw hs]
  simp [isDigit_ne c '\x7b' (by decide) hd, isDigit_ne c '[' (by decide) hd,
    isDigit_ne c '"' (by decide) hd, isDigit_ne c 't' (by decide) hd,
    isDigit_ne c 'f' (by decide) hd, isDigit_ne c 'n' (by decide) hd, hd]

theorem parseValue_ws (g : Nat) (s : List Char) :
    parseValue false (g + 1) (' ' :: s) = parseValue false (g + 1) s := by
  simp only [parseValue, skipInsig_ws false ' ' s (by decide)]

theorem parseItems_close (g : Nat) (r : List Char) (st : SeqSt) (acc : List Value) :
    parseItems false (g + 1) (']' :: r) st acc = .ok (.arr acc, r) := by
  cases st <;>
    (simp only [parseItems, skipInsig_not_ws false ']' r (by decide) (by decide)]
     simp)

theorem parseItems_comma (g : Nat) (r : List Char) (acc : List Value) :
    parseItems false (g + 1) (',' :: r) .afterValue acc
      = parseItems false g r .awaitValue acc := by
  simp only [parseItems, skipInsig_not_ws false ',' r (by decide) (by decide)]
  simp

theorem parseItems_ws (g : Nat) (s : List Char) (st : SeqSt) (acc : List Value) :
    parseItems false (g + 1) (' ' :: s) st acc = parseItems false (g + 1) s st acc := by
  simp only [parseItems, skipInsig_ws false ' ' s (by decide)]

theorem parseItems_value (g : Nat) (c : Char) (r : List Char) (st : SeqSt)
    (acc : List Value) (hst : st ≠ .afterValue)
    (hw : isWs c = false) (hs : c ≠ '/') (hc : c ≠ ']') :
    parseItems false (g + 1) (c :: r) st acc
      = (match parseValue false g (c :: r) with
         | .error e => .error e
         | .ok (v, r2) => parseItems false g r2 .afterValue (acc ++ [v])) := by
  cases st with
  | afterValue => exact absurd rfl hst
  | awaitFirst =>
    simp only [parseItems, skipInsig_not_ws false c r hw hs]
    simp [hc]
  | awaitValue =>
    simp only [parseItems, skipInsig_not_ws false c r hw hs]
    simp [hc]

theorem parseMembers_close (g : Nat) (r : List Char) (st : SeqSt)
    (acc : List (List Char × Value)) :
    parseMembers false (g + 1) ('\x7d' :: r) st acc = .ok (.obj acc, r) := by
  cases st <;>
    (simp only [parseMembers, skipInsig_not_ws false '\x7d' r (by decide) (by decide)]
     simp)

theorem parseMembers_comma (g : Nat) (r : List Char) (acc : List (List Char × Value)) :
    parseMembers false (g + 1) (',' :: r) .afterValue acc
      = parseMembers false g r .awaitValue acc := by
  simp only [parseMembers, skipInsig_not_ws false ',' r (by decide) (by decide)]
  simp

theorem parseMembers_ws (g : Nat) (s : List Char) (st : SeqSt)
    (acc : List (List Char × Value)) :
    parseMembers false (g + 1) (' ' :: s) st acc
      = parseMembers false (g + 1) s st acc := by
  simp only [parseMembers, skipInsig_ws false ' ' s (by decide)]

theorem parseMembers_key (g : Nat) (r : List Char) (st : SeqSt)
    (acc : List (List Char × Value)) (hst : st ≠ .afterValue) :
    parseMembers false (g + 1) ('"' :: r) st acc
      = (match parseStringBody false (r.length + 1) r with
         | .error e => .error e
         | .ok (k, r2) =>
           match skipInsig false r2 with
           | .error e => .error e
           | .ok (':' :: r3) =>
             (match parseValue false g r3 with
              | .error e => .error e
              | .ok (v, r4) => parseMembers false g r4 .afterValue (acc ++ [(k, v)]))
           | .ok _ => .error .ExpectedColon) := by
  cases st with
  | afterValue => exact absurd rfl hst
  | awaitFirst =>
    simp only [parseMembers, skipInsig_not_ws false '"' r (by decide) (by decide)]
    simp
  | awaitValue =>
    simp only [parseMembers, skipInsig_not_ws false '"' r (by decide) (by decide)]
    simp

/-! ### Shape lemmas for the encoder -/

theorem encode_null : encode .null = ['n', 'u', 'l', 'l'] := rfl

theorem encode_true : encode (.bool true) = ['t', 'r', 'u', 'e'] := rfl

theorem encode_false : encode (.bool false) = ['f', 'a', 'l', 's', 'e'] := rfl

theorem encode_int (n : Int) : encode (.int n) = renderInt n := rfl

theorem encode_float (m e : Int) : encode (.float m e) = renderFloat m e := rfl

theorem encode_str (s : List Char) : encode (.str s) = '"' :: escapeList s ++ ['"'] := rfl

theorem encode_arr (items : List Value) :
    encode (.arr items) = '[' :: encodeSeq (embedList items) ++ [']'] := rfl

theorem encode_obj (ms : List (List Char × Value)) :
    encode (.obj ms) = '\x7b' :: encodeMembers (embedMembers ms) ++ ['\x7d'] := rfl

theorem renderInt_head (n : Int) :
    ∃ c t, renderInt n = c :: t ∧ (c = '-' ∨ c.isDigit = true) := by
  by_cases hneg : n < 0
  · exact ⟨'-', natDigits n.natAbs, by rw [renderInt, if_pos hneg], Or.inl rfl⟩
  · obtain ⟨c0, t0, hc0, hc0d⟩ := natDigits_head_digit n.natAbs
    exact ⟨c0, t0, by rw [renderInt, if_neg hneg, hc0], Or.inr hc0d⟩

/-- Every encoded value starts with a character that the skipper leaves in
place and that is not an array closer. -/
theorem encode_head (v : Value) :
    ∃ c t, encode v = c :: t ∧ isWs c = false ∧ c ≠ '/' ∧ c ≠ ']' := by
  have hint : ∀ n : Int, ∀ X, ∃ c t, renderInt n ++ X = c :: t ∧
      isWs c = false ∧ c ≠ '/' ∧ c ≠ ']' := by
    intro n X
    obtain ⟨c0, t0, hc0, hc0k⟩ := renderInt_head n
    rcases hc0k with hm | hd
    · exact ⟨c0, t0 ++ X, by rw [hc0]; rfl, by rw [hm]; decide, by rw [hm]; decide,
        by rw [hm]; decide⟩
    · obtain ⟨hw, hs, hb⟩ := isDigit_not_special c0 hd
      exact ⟨c0, t0 ++ X, by rw [hc0]; rfl, hw, hs, hb⟩
  rcases v with _ | b | n | ⟨m, e⟩ | s | items | ms
  · exact ⟨'n', _, encode_null, by decide, by decide, by decide⟩
  · cases b
    · exact ⟨'f', _, encode_false, by decide, by decide, by decide⟩
    · exact ⟨'t', _, encode_true, by decide, by decide, by decide⟩
  · obtain ⟨c, t, h1, h2, h3, h4⟩ := hint n []
    exact ⟨c, t, by rw [encode_int]; rw [← List.append_nil (renderInt n)]; exact h1, h2, h3, h4⟩
  · obtain ⟨c, t, h1, h2, h3, h4⟩ := hint m ('e' :: renderInt e)
    exact ⟨c, t, by rw [encode_float, renderFloat]; exact h1, h2, h3, h4⟩
  · exact ⟨'"', _, encode_str s, by decide, by decide, by decide⟩
  · exact ⟨'[', _, encode_arr items, by decide, by decide, by decide⟩
  · exact ⟨'\x7b', _, encode_obj ms, by decide, by decide, by decide⟩

theorem encode_length_pos (v : Value) : 0 < (encode v).length := by
  obtain ⟨c, t, h, _⟩ := encode_head v
  rw [h]
  simp



/-! ### The round-trip theorem: parsing an encoded value recovers it -/

theorem sepHead_close_brace (rest : List Char) : SepHead ('\x7d' :: rest) := by
  simp [SepHead]

theorem sepHead_close_brack (rest : List Char) : SepHead (']' :: rest) := by
  simp [SepHead]

theorem sepHead_comma (rest : List Char) : SepHead (',' :: rest) := by
  simp [SepHead]

theorem parseItems_value_ok (g : Nat) (c : Char) (r : List Char) (st : SeqSt)
    (acc : List Value) (hst : st ≠ .afterValue)
    (hw : isWs c = false) (hs : c ≠ '/') (hc : c ≠ ']')
    (v : Value) (r2 : List Char) (hv : parseValue false g (c :: r) = .ok (v, r2)) :
    parseItems false (g + 1) (c :: r) st acc
      = parseItems false g r2 .afterValue (acc ++ [v]) := by
  simp only [parseItems_value g c r st acc hst hw hs hc, hv]

theorem parseMembers_key_ok (g : Nat) (r : List Char) (st : SeqSt)
    (acc : List (List Char × Value)) (hst : st ≠ .afterValue)
    (k r2 r3 : List Char) (v : Value) (r4 : List Char)
    (hk : parseStringBody false (r.length + 1) r = .ok (k, r2))
    (hskip : skipInsig false r2 = .ok (':' :: r3))
    (hv : parseValue false g r3 = .ok (v, r4)) :
    parseMembers false (g + 1) ('"' :: r) st acc
      = parseMembers false g r4 .afterValue (acc ++ [(k, v)]) := by
  simp only [parseMembers_key g r st acc hst, hk, hskip, hv]

/-- Joint induction: parsing the encoding of a well-formed value (or of a
sequence of items, or of a run of object members) with sufficient fuel
succeeds and returns exactly that value. -/
theorem parse_encode_all : ∀ fuel : Nat,
    (∀ v rest, WF v → SepHead rest → (encode v).length < fuel →
        parseValue false fuel (encode v ++ rest) = .ok (v, rest)) ∧
    (∀ items st acc rest, st ≠ SeqSt.afterValue → (∀ v ∈ items, WF v) →
        (encodeSeq (embedList items)).length + 1 < fuel →
        parseItems false fuel (encodeSeq (embedList items) ++ ']' :: rest) st acc
          = .ok (.arr (acc ++ items), rest)) ∧
    (∀ ms st acc rest, st ≠ SeqSt.afterValue → (∀ kv ∈ ms, WF kv.2) →
        (encodeMembers (embedMembers ms)).length + 1 < fuel →
        parseMembers false fuel (encodeMembers (embedMembers ms) ++ '\x7d' :: rest) st acc
          = .ok (.obj (acc ++ ms), rest)) := by
  intro fuel
  induction fuel using Nat.strong_induction_on with
  | _ fuel IH =>
  refine ⟨?_, ?_, ?_⟩
  · -- values
    intro v rest hWF hSep hlen
    cases fuel with
    | zero => omega
    | succ g =>
      rcases v with _ | b | n | ⟨m, e⟩ | s | items | ms
      · rw [encode_null,
          show (['n', 'u', 'l', 'l'] : List Char) ++ rest
            = 'n' :: 'u' :: 'l' :: 'l' :: rest from rfl]
        exact parseValue_null g rest
      · cases b
        · rw [encode_false,
            show (['f', 'a', 'l', 's', 'e'] : List Char) ++ rest
              = 'f' :: 'a' :: 'l' :: 's' :: 'e' :: rest from rfl]
          exact parseValue_false g rest
        · rw [encode_true,
            show (['t', 'r', 'u', 'e'] : List Char) ++ rest
              = 't' :: 'r' :: 'u' :: 'e' :: rest from rfl]
          exact parseValue_true g rest
      · rw [encode_int]
        obtain ⟨c0, t0, hc0, hk⟩ := renderInt_head n
        rcases hk with hm | hd
        · rw [hc0, hm, List.cons_append, parseValue_minus, ← List.cons_append, ← hm, ← hc0]
          exact parseNumber_renderInt false n rest hSep
        · rw [hc0, List.cons_append, parseValue_digit g c0 _ hd, ← List.cons_append, ← hc0]
          exact parseNumber_renderInt false n rest hSep
      · cases hWF with
        | float m e h0 h10 =>
        rw [encode_float]
        obtain ⟨c0, t0, hc0, hk⟩ := renderInt_head m
        have hshape : renderFloat m e ++ rest = c0 :: (t0 ++ 'e' :: renderInt e ++ rest) := by
          rw [renderFloat, hc0]
          simp
        rcases hk with hm | hd
        · rw [hshape, hm, parseValue_minus, ← hm, ← hshape]
          exact parseNumber_renderFloat false m e rest h0 h10 hSep
        · rw [hshape, parseValue_digit g c0 _ hd, ← hshape]
          exact parseNumber_renderFloat false m e rest h0 h10 hSep
      · rw [encode_str]
        simp only [List.cons_append, List.append_assoc, List.singleton_append, List.nil_append]
        exact parseValue_string g _ s rest
          (psb_escapeList false s rest _
            (by simp only [List.length_append, List.length_cons]; omega))
      · cases hWF with
        | arr items hitems =>
        rw [encode_arr] at hlen ⊢
        simp only [List.cons_append, List.append_assoc, List.singleton_append, List.nil_append]
        rw [parseValue_arr_open]
        have hbound : (encodeSeq (embedList items)).length + 1 < g := by
          simp only [List.length_cons, List.length_append, List.length_singleton] at hlen
          omega
        have hres := (IH g (by omega)).2.1 items .awaitFirst [] rest (by simp) hitems hbound
        rw [hres]
        simp
      · cases hWF with
        | obj ms hms =>
        rw [encode_obj] at hlen ⊢
        simp only [List.cons_append, List.append_assoc, List.singleton_append, List.nil_append]
        rw [parseValue_obj_open]
        have hbound : (encodeMembers (embedMembers ms)).length + 1 < g := by
          simp only [List.length_cons, List.length_append, List.length_singleton] at hlen
          omega
        have hres := (IH g (by omega)).2.2 ms .awaitFirst [] rest (by simp) hms hbound
        rw [hres]
        simp
  · -- array items
    intro items st acc rest hst hWFs hlen
    cases fuel with
    | zero => omega
    | succ g =>
      cases items with
      | nil =>
        rw [show encodeSeq (embedList []) = [] from rfl, List.nil_append]
        rw [parseItems_close g rest st acc]
        simp
      | cons v vs =>
        obtain ⟨c0, t0, hc0, hw, hs, hb⟩ := encode_head v
        have hWFv : WF v := hWFs v (by simp)
        have hvpos := encode_length_pos v
        cases vs with
        | nil =>
          have hseq : encodeSeq (embedList [v]) = encode v := rfl
          rw [hseq] at hlen ⊢
          have hval := (IH g (by omega)).1 v (']' :: rest) hWFv (sepHead_close_brack rest)
            (by omega)
          rw [hc0, List.cons_append]
          rw [parseItems_value_ok g c0 _ st acc hst hw hs hb v (']' :: rest)
            (by rw [← List.cons_append, ← hc0]; exact hval)]
          obtain ⟨g1, rfl⟩ : ∃ g1, g = g1 + 1 := ⟨g - 1, by omega⟩
          rw [parseItems_close g1 rest .afterValue (acc ++ [v])]
        | cons v2 vs2 =>
          have hseq : encodeSeq (embedList (v :: v2 :: vs2))
              = encode v ++ ',' :: ' ' :: encodeSeq (embedList (v2 :: vs2)) := rfl
          rw [hseq] at hlen ⊢
          have hlen2 : (encode v).length + 2 + (encodeSeq (embedList (v2 :: vs2))).length + 1
              < g + 1 := by
            simp only [List.length_append, List.length_cons] at hlen
            omega
          simp only [List.append_assoc, List.cons_append, List.nil_append]
          have hval := (IH g (by omega)).1 v
            (',' :: ' ' :: (encodeSeq (embedList (v2 :: vs2)) ++ ']' :: rest)) hWFv
            (sepHead_comma _) (by omega)
          rw [hc0, List.cons_append]
          rw [parseItems_value_ok g c0 _ st acc hst hw hs hb v _
            (by rw [← List.cons_append, ← hc0]; exact hval)]
          obtain ⟨g2, rfl⟩ : ∃ g2, g = g2 + 2 := ⟨g - 2, by omega⟩
          rw [show g2 + 2 = (g2 + 1) + 1 from rfl]
          rw [parseItems_comma (g2 + 1) _ (acc ++ [v])]
          rw [parseItems_ws g2 _ .awaitValue (acc ++ [v])]
          have hres := (IH (g2 + 1) (by omega)).2.1 (v2 :: vs2) .awaitValue (acc ++ [v]) rest
            (by simp)
            (fun u hu => hWFs u (by simp at hu ⊢; tauto))
            (by omega)
          rw [hres]
          simp
  · -- object members
    intro ms st acc rest hst hWFs hlen
    cases fuel with
    | zero => omega
    | succ g =>
      cases ms with
      | nil =>
        rw [show encodeMembers (embedMembers []) = [] from rfl, List.nil_append]
        rw [parseMembers_close g rest st acc]
        simp
      | cons kv ms2 =>
        obtain ⟨k, v⟩ := kv
        have hWFv : WF v := hWFs (k, v) (by simp)
        have hvpos := encode_length_pos v
        cases ms2 with
        | nil =>
          have hm1 : encodeMembers (embedMembers [(k, v)])
              = ('"' :: (escapeList k ++ ['"'])) ++ ':' :: ' ' :: encode v := rfl
          rw [hm1] at hlen ⊢
          have hlen2 : (escapeList k).length + 4 + (encode v).length + 1 < g + 1 := by
            simp only [List.length_append, List.length_cons, List.length_singleton] at hlen
            omega
          simp only [List.append_assoc, List.cons_append, List.singleton_append, List.nil_append]
          obtain ⟨g1, rfl⟩ : ∃ g1, g = g1 + 1 := ⟨g - 1, by omega⟩
          have hval := (IH (g1 + 1) (by omega)).1 v ('\x7d' :: rest) hWFv
            (sepHead_close_brace rest) (by omega)
          rw [parseMembers_key_ok (g1 + 1) _ st acc hst k
            (':' :: ' ' :: (encode v ++ '\x7d' :: rest))
            (' ' :: (encode v ++ '\x7d' :: rest)) v ('\x7d' :: rest)
            (psb_escapeList false k _ _
              (by simp only [List.length_append, List.length_cons]; omega))
            (skipInsig_not_ws false ':' _ (by decide) (by decide))
            (by rw [parseValue_ws g1]; exact hval)]
          rw [parseMembers_close g1 rest .afterValue (acc ++ [(k, v)])]
        | cons kv2 ms3 =>
          obtain ⟨k2, v2⟩ := kv2
          have hm2 : encodeMembers (embedMembers ((k, v) :: (k2, v2) :: ms3))
              = ('"' :: (escapeList k ++ ['"'])) ++ ':' :: ' ' :: encode v
                ++ ',' :: ' ' :: encodeMembers (embedMembers ((k2, v2) :: ms3)) := rfl
          rw [hm2] at hlen ⊢
          have hlen2 : (escapeList k).length + 4 + (encode v).length + 2
              + (encodeMembers (embedMembers ((k2, v2) :: ms3))).length + 1 < g + 1 := by
            simp only [List.length_append, List.length_cons, List.length_singleton] at hlen
            omega
          simp only [List.append_assoc, List.cons_append, List.singleton_append, List.nil_append]
          obtain ⟨g1, rfl⟩ : ∃ g1, g = g1 + 1 := ⟨g - 1, by omega⟩
          have hval := (IH (g1 + 1) (by omega)).1 v
            (',' :: ' ' :: (encodeMembers (embedMembers ((k2, v2) :: ms3)) ++ '\x7d' :: rest))
            hWFv (sepHead_comma _) (by omega)
          rw [parseMembers_key_ok (g1 + 1) _ st acc hst k
            (':' :: ' ' :: (encode v ++ ',' :: ' '
              :: (encodeMembers (embedMembers ((k2, v2) :: ms3)) ++ '\x7d' :: rest)))
            (' ' :: (encode v ++ ',' :: ' '
              :: (encodeMembers (embedMembers ((k2, v2) :: ms3)) ++ '\x7d' :: rest)))
            v
            (',' :: ' ' :: (encodeMembers (embedMembers ((k2, v2) :: ms3)) ++ '\x7d' :: rest))
            (psb_escapeList false k _ _
              (by simp only [List.length_append, List.length_cons]; omega))
            (skipInsig_not_ws false ':' _ (by decide) (by decide))
            (by rw [parseValue_ws g1]; exact hval)]
          obtain ⟨g2, rfl⟩ : ∃ g2, g1 = g2 + 1 := ⟨g1 - 1, by omega⟩
          rw [parseMembers_comma (g2 + 1) _ (acc ++ [(k, v)])]
          rw [parseMembers_ws g2 _ .awaitValue (acc ++ [(k, v)])]
          have hres := (IH (g2 + 1) (by omega)).2.2 ((k2, v2) :: ms3) .awaitValue
            (acc ++ [(k, v)]) rest (by simp)
            (fun u hu => hWFs u (by simp at hu ⊢; tauto))
            (by omega)
          rw [hres]
          simp

/-! ### Mode monotonicity: every strict success is a loose success -/

/-- In strict mode the skipper stops at any non-whitespace character. -/
theorem skipInsig_strict_not_ws (c : Char) (s : List Char) (hw : isWs c = false) :
    skipInsig true (c :: s) = .ok (c :: s) := by
  rw [skipInsig, skipInsigAux.eq_def]
  simp [hw]

/-- One strict-mode reader step either fails or agrees with the loose step. -/
theorem stringStep_mono (s : List Char) :
    (∃ e, stringStep true s = .fail e) ∨ stringStep false s = stringStep true s := by
  rcases s with _ | ⟨c, cs⟩
  · exact .inl ⟨.UnterminatedString, rfl⟩
  by_cases h1 : c = '"'
  · subst h1; right; rw [stringStep_close, stringStep_close]
  by_cases h2 : c = '\\'
  · subst h2
    rcases cs with _ | ⟨e1, cs2⟩
    · exact .inl ⟨.InvalidEscape, rfl⟩
    by_cases q1 : e1 = '"'
    · subst q1
      rcases cs2 with _ | ⟨a, cs3⟩
      · exact .inl ⟨.InvalidEscape, rfl⟩
      · right; rw [stringStep_esc_quote, stringStep_esc_quote]
    by_cases q2 : e1 = '\\'
    · subst q2; right; rw [stringStep_esc_backslash, stringStep_esc_backslash]
    by_cases q3 : e1 = '/'
    · subst q3; right; rw [stringStep_esc_slash, stringStep_esc_slash]
    by_cases q4 : e1 = 'b'
    · subst q4; right; rw [stringStep_esc_b, stringStep_esc_b]
    by_cases q5 : e1 = 'f'
    · subst q5; right; rw [stringStep_esc_f, stringStep_esc_f]
    by_cases q6 : e1 = 'n'
    · subst q6; right; rw [stringStep_esc_n, stringStep_esc_n]
    by_cases q7 : e1 = 'r'
    · subst q7; right; rw [stringStep_esc_r, stringStep_esc_r]
    by_cases q8 : e1 = 't'
    · subst q8; right; rw [stringStep_esc_t, stringStep_esc_t]
    by_cases q9 : e1 = 'u'
    · subst q9
      rcases cs2 with _ | ⟨a1, _ | ⟨a2, _ | ⟨a3, _ | ⟨a4, cs3⟩⟩⟩⟩
      · right; rfl
      · right; rfl
      · right; rfl
      · right; rfl
      · right; rfl
    by_cases q10 : e1 = '\n'
    · subst q10; exact .inl ⟨.InvalidEscape, stringStep_lf_strict cs2⟩
    by_cases q11 : e1 = '\r'
    · subst q11; exact .inl ⟨.InvalidEscape, stringStep_cr_strict cs2⟩
    · refine .inl ⟨.InvalidEscape, stringStep_bad_escape true e1 cs2 ?_⟩
      intro h
      rw [EscIntro] at h
      rcases h with h | h | h | h | h | h | h | h | h | ⟨h, _⟩
      · exact q1 h
      · exact q2 h
      · exact q3 h
      · exact q4 h
      · exact q5 h
      · exact q6 h
      · exact q7 h
      · exact q8 h
      · exact q9 h
      · exact absurd h (by decide)
  by_cases h3 : c = '\n'
  · subst h3
    exact .inl ⟨.InvalidControlCharInString, stringStep_literal_lf true cs⟩
  by_cases h4 : c = '\r'
  · subst h4
    exact .inl ⟨.InvalidControlCharInString, stringStep_literal_cr true cs⟩
  · right
    rw [stringStep_plain true c cs h1 h2 h3 h4, stringStep_plain false c cs h1 h2 h3 h4]

/-- A strict-mode success of the string reader is also a loose-mode success
with the same result. -/
theorem psb_mono : ∀ (f : Nat) (s : List Char) (p : List Char × List Char),
    parseStringBody true f s = .ok p → parseStringBody false f s = .ok p := by
  intro f
  induction f with
  | zero =>
    intro s p h
    rw [parseStringBody] at h
    exact absurd h (by simp)
  | succ g IH =>
    intro s p h
    rcases stringStep_mono s with ⟨e, hf⟩ | hmm
    · rw [psb_step_fail true g s e hf] at h
      exact absurd h (by simp)
    · cases hs : stringStep true s with
      | done rest =>
        rw [psb_step_done true g s rest hs] at h
        rw [psb_step_done false g s rest (by rw [hmm, hs])]
        exact h
      | emit c rest =>
        rw [psb_step_emit true g s rest c hs] at h
        rw [psb_step_emit false g s rest c (by rw [hmm, hs])]
        cases hin : parseStringBody true g rest with
        | error e =>
          rw [hin, consFst_error] at h
          exact absurd h (by simp)
        | ok q =>
          rw [IH rest q hin]
          rw [hin] at h
          exact h
      | drop rest =>
        rw [psb_step_drop true g s rest hs] at h
        rw [psb_step_drop false g s rest (by rw [hmm, hs])]
        exact IH rest p h
      | fail e =>
        rw [psb_step_fail true g s e hs] at h
        exact absurd h (by simp)

/-- A strict-mode success of the skipper (which never enters a comment) is
also a loose-mode success, provided the stopping character does not start a
comment. -/
theorem skipInsig_mono : ∀ (s r : List Char), skipInsig true s = .ok r →
    r.head? ≠ some '/' → skipInsig false s = .ok r := by
  intro s
  induction s with
  | nil =>
    intro r h _
    rw [skipInsig_nil] at h
    injection h with h
    rw [← h]
    exact skipInsig_nil false
  | cons c cs IH =>
    intro r h hr
    by_cases hw : isWs c = true
    · rw [skipInsig_ws true c cs hw] at h
      rw [skipInsig_ws false c cs hw]
      exact IH r h hr
    · have hw2 : isWs c = false := by simpa using hw
      rw [skipInsig_strict_not_ws c cs hw2] at h
      injection h with h
      rw [← h] at hr ⊢
      have hc : c ≠ '/' := by
        intro hcc
        rw [hcc] at hr
        simp at hr
      exact skipInsig_not_ws false c cs hw2 hc

/-- The strict number reader only ever rejects more than the loose one. -/
theorem parseNumBody_mono (neg : Bool) (s : List Char) (p : Value × List Char)
    (h : parseNumBody true neg s = .ok p) : parseNumBody false neg s = .ok p := by
  rw [parseNumBody] at h ⊢
  split_ifs at h ⊢ <;> first | exact h | simp_all

/-- Mode monotonicity for complete number literals. -/
theorem parseNumber_mono (s : List Char) (p : Value × List Char)
    (h : parseNumber true s = .ok p) : parseNumber false s = .ok p := by
  rw [parseNumber] at h ⊢
  split_ifs at h ⊢ <;> exact parseNumBody_mono _ _ _ h

/-- In strict mode a value can never start with `/`. -/
theorem parseValue_slash_strict (f : Nat) (r : List Char) :
    ∃ e, parseValue true f ('/' :: r) = .error e := by
  cases f with
  | zero => exact ⟨.DepthExceeded, rfl⟩
  | succ g =>
    refine ⟨.UnexpectedCharacter, ?_⟩
    simp only [parseValue, skipInsig_strict_not_ws '/' r (by decide)]
    simp

/-- Joint mode monotonicity of the three mutually recursive parsers: any
strict-mode success is a loose-mode success with the same value and rest. -/
theorem parse_mono_all : ∀ fuel : Nat,
    (∀ s v rest, parseValue true fuel s = .ok (v, rest) →
        parseValue false fuel s = .ok (v, rest)) ∧
    (∀ s st acc v rest, parseMembers true fuel s st acc = .ok (v, rest) →
        parseMembers false fuel s st acc = .ok (v, rest)) ∧
    (∀ s st acc v rest, parseItems true fuel s st acc = .ok (v, rest) →
        parseItems false fuel s st acc = .ok (v, rest)) := by
  intro fuel
  induction fuel with
  | zero =>
    refine ⟨?_, ?_, ?_⟩
    · intro s v rest h
      rw [parseValue] at h
      exact absurd h (by simp)
    · intro s st acc v rest h
      rw [parseMembers] at h
      exact absurd h (by simp)
    · intro s st acc v rest h
      rw [parseItems] at h
      exact absurd h (by simp)
  | succ g IH =>
    obtain ⟨IHv, IHm, IHi⟩ := IH
    refine ⟨?_, ?_, ?_⟩
    · -- parseValue
      intro s v rest h
      cases hsk : skipInsig true s with
      | error e =>
        simp only [parseValue, hsk] at h
        exact absurd h (by simp)
      | ok r0 =>
        cases r0 with
        | nil =>
          simp only [parseValue, hsk] at h
          exact absurd h (by simp)
        | cons c r =>
          have hslash : c ≠ '/' := by
            intro hc
            subst hc
            simp only [parseValue, hsk] at h
            simp at h
          have hsk2 : skipInsig false s = .ok (c :: r) :=
            skipInsig_mono s (c :: r) hsk (by simp [hslash])
          simp only [parseValue, hsk] at h
          simp only [parseValue, hsk2]
          by_cases h1 : c = '\x7b'
          · rw [if_pos h1] at h ⊢
            exact IHm r .awaitFirst [] v rest h
          rw [if_neg h1] at h ⊢
          by_cases h2 : c = '['
          · rw [if_pos h2] at h ⊢
            exact IHi r .awaitFirst [] v rest h
          rw [if_neg h2] at h ⊢
          by_cases h3 : c = '"'
          · rw [if_pos h3] at h ⊢
            cases hp : parseStringBody true (r.length + 1) r with
            | error e =>
              rw [hp] at h
              simp at h
            | ok q =>
              rw [psb_mono (r.length + 1) r q hp]
              rw [hp] at h
              exact h
          rw [if_neg h3] at h ⊢
          by_cases h4 : c = 't'
          · rw [if_pos h4] at h ⊢; exact h
          rw [if_neg h4] at h ⊢
          by_cases h5 : c = 'f'
          · rw [if_pos h5] at h ⊢; exact h
          rw [if_neg h5] at h ⊢
          by_cases h6 : c = 'n'
          · rw [if_pos h6] at h ⊢; exact h
          rw [if_neg h6] at h ⊢
          by_cases h7 : (c = '-' || c.isDigit) = true
          · have hcT : (c = '-' || c.isDigit || (!true && c = '.')) = true := by
              simp only [Bool.not_true, Bool.false_and, Bool.or_false]
              exact h7
            have hcF : (c = '-' || c.isDigit || (!false && c = '.')) = true := by
              simp only [Bool.not_false, Bool.true_and]
              rcases Bool.or_eq_true_iff.mp h7 with hx | hx <;> simp [hx]
            rw [if_pos hcT] at h
            rw [if_pos hcF]
            exact parseNumber_mono _ _ h
          · have hcT : ¬((c = '-' || c.isDigit || (!true && c = '.')) = true) := by
              simp only [Bool.not_true, Bool.false_and, Bool.or_false]
              exact h7
            rw [if_neg hcT] at h
            exact absurd h (by simp)
    · -- parseMembers
      intro s st acc v rest h
      cases hsk : skipInsig true s with
      | error e =>
        simp only [parseMembers, hsk] at h
        exact absurd h (by simp)
      | ok r0 =>
        cases r0 with
        | nil =>
          simp only [parseMembers, hsk] at h
          exact absurd h (by simp)
        | cons c r =>
          have hslash : c ≠ '/' := by
            intro hc
            subst hc
            simp only [parseMembers, hsk] at h
            cases st <;> simp at h
          have hsk2 : skipInsig false s = .ok (c :: r) :=
            skipInsig_mono s (c :: r) hsk (by simp [hslash])
          cases st with
          | afterValue =>
            simp only [parseMembers, hsk] at h
            simp only [parseMembers, hsk2]
            by_cases hb : c = '\x7d'
            · rw [if_pos hb] at h ⊢
              exact h
            rw [if_neg hb] at h ⊢
            by_cases hcm : c = ','
            · rw [if_pos hcm] at h ⊢
              exact IHm r .awaitValue acc v rest h
            · rw [if_neg hcm] at h
              exact absurd h (by simp)
          | awaitFirst =>
            simp only [parseMembers, hsk] at h
            simp only [parseMembers, hsk2]
            by_cases hb : c = '\x7d'
            · rw [if_pos hb] at h ⊢
              exact h
            rw [if_neg hb] at h ⊢
            by_cases hq : c = '"'
            · rw [if_pos hq] at h ⊢
              cases hp : parseStringBody true (r.length + 1) r with
              | error e =>
                rw [hp] at h
                simp at h
              | ok q =>
                obtain ⟨k, r2⟩ := q
                simp only [psb_mono (r.length + 1) r (k, r2) hp]
                simp only [hp] at h
                cases hsk3 : skipInsig true r2 with
                | error e =>
                  simp only [hsk3] at h
                  exact absurd h (by simp)
                | ok r3 =>
                  simp only [hsk3] at h
                  cases r3 with
                  | nil => exact absurd h (by simp)
                  | cons d r3t =>
                    by_cases hd : d = ':'
                    · subst hd
                      simp only [skipInsig_mono r2 (':' :: r3t) hsk3 (by simp)]
                      cases hv : parseValue true g r3t with
                      | error e =>
                        simp only [hv] at h
                        exact absurd h (by simp)
                      | ok q2 =>
                        obtain ⟨v1, r4⟩ := q2
                        simp only [hv] at h
                        simp only [IHv r3t v1 r4 hv]
                        exact IHm r4 .afterValue (acc ++ [(k, v1)]) v rest h
                    · split at h
                      · rename_i heq
                        simp at heq
                      · rename_i r3 heq
                        rw [Except.ok.injEq, List.cons.injEq] at heq
                        exact absurd heq.1 hd
                      · simp at h
            · rw [if_neg hq] at h
              exact absurd h (by simp)
          | awaitValue =>
            simp only [parseMembers, hsk] at h
            simp only [parseMembers, hsk2]
            by_cases hb : c = '\x7d'
            · rw [if_pos hb] at h
              exact absurd h (by simp)
            rw [if_neg hb] at h ⊢
            by_cases hq : c = '"'
            · rw [if_pos hq] at h ⊢
              cases hp : parseStringBody true (r.length + 1) r with
              | error e =>
                rw [hp] at h
                simp at h
              | ok q =>
                obtain ⟨k, r2⟩ := q
                simp only [psb_mono (r.length + 1) r (k, r2) hp]
                simp only [hp] at h
                cases hsk3 : skipInsig true r2 with
                | error e =>
                  simp only [hsk3] at h
                  exact absurd h (by simp)
                | ok r3 =>
                  simp only [hsk3] at h
                  cases r3 with
                  | nil => exact absurd h (by simp)
                  | cons d r3t =>
                    by_cases hd : d = ':'
                    · subst hd
                      simp only [skipInsig_mono r2 (':' :: r3t) hsk3 (by simp)]
                      cases hv : parseValue true g r3t with
                      | error e =>
                        simp only [hv] at h
                        exact absurd h (by simp)
                      | ok q2 =>
                        obtain ⟨v1, r4⟩ := q2
                        simp only [hv] at h
                        simp only [IHv r3t v1 r4 hv]
                        exact IHm r4 .afterValue (acc ++ [(k, v1)]) v rest h
                    · split at h
                      · rename_i heq
                        simp at heq
                      · rename_i r3 heq
                        rw [Except.ok.injEq, List.cons.injEq] at heq
                        exact absurd heq.1 hd
                      · simp at h
            · rw [if_neg hq] at h
              exact absurd h (by simp)
    · -- parseItems
      intro s st acc v rest h
      cases hsk : skipInsig true s with
      | error e =>
        simp only [parseItems, hsk] at h
        exact absurd h (by simp)
      | ok r0 =>
        cases r0 with
        | nil =>
          simp only [parseItems, hsk] at h
          exact absurd h (by simp)
        | cons c r =>
          have hslash : c ≠ '/' := by
            intro hc
            subst hc
            simp only [parseItems, hsk] at h
            obtain ⟨e0, he0⟩ := parseValue_slash_strict g r
            cases st <;> simp [he0] at h
          have hsk2 : skipInsig false s = .ok (c :: r) :=
            skipInsig_mono s (c :: r) hsk (by simp [hslash])
          cases st with
          | afterValue =>
            simp only [parseItems, hsk] at h
            simp only [parseItems, hsk2]
            by_cases hb : c = ']'
            · rw [if_pos hb] at h ⊢
              exact h
            rw [if_neg hb] at h ⊢
            by_cases hcm : c = ','
            · rw [if_pos hcm] at h ⊢
              exact IHi r .awaitValue acc v rest h
            · rw [if_neg hcm] at h
              exact absurd h (by simp)
          | awaitFirst =>
            simp only [parseItems, hsk] at h
            simp only [parseItems, hsk2]
            by_cases hb : c = ']'
            · rw [if_pos hb] at h ⊢
              exact h
            rw [if_neg hb] at h ⊢
            cases hv : parseValue true g (c :: r) with
            | error e =>
              simp only [hv] at h
              exact absurd h (by simp)
            | ok q2 =>
              obtain ⟨v1, r2⟩ := q2
              simp only [hv] at h
              simp only [IHv (c :: r) v1 r2 hv]
              exact IHi r2 .afterValue (acc ++ [v1]) v rest h
          | awaitValue =>
            simp only [parseItems, hsk] at h
            simp only [parseItems, hsk2]
            by_cases hb : c = ']'
            · rw [if_pos hb] at h
              exact absurd h (by simp)
            rw [if_neg hb] at h ⊢
            cases hv : parseValue true g (c :: r) with
            | error e =>
              simp only [hv] at h
              exact absurd h (by simp)
            | ok q2 =>
              obtain ⟨v1, r2⟩ := q2
              simp only [hv] at h
              simp only [IHv (c :: r) v1 r2 hv]
              exact IHi r2 .afterValue (acc ++ [v1]) v rest h

/-! ### Strict-mode steps of the member loop (for the trailing-comma claim) -/

theorem parseMembers_comma_strict (g : Nat) (r : List Char)
    (acc : List (List Char × Value)) :
    parseMembers true (g + 1) (',' :: r) .afterValue acc
      = parseMembers true g r .awaitValue acc := by
  simp only [parseMembers, skipInsig_strict_not_ws ',' r (by decide)]
  simp

theorem parseMembers_close_strict_trailing (g : Nat) (r : List Char)
    (acc : List (List Char × Value)) :
    parseMembers true (g + 1) ('\x7d' :: r) .awaitValue acc
      = .error .TrailingCommaInStrict := by
  simp only [parseMembers, skipInsig_strict_not_ws '\x7d' r (by decide)]
  simp

/-! ### The claims -/

/-- C1, counterexample to the claim as stated: a host tuple is a host value
the encoder accepts, its encoding decodes successfully, but the decoded
value is a list, which is not structurally equal to the original tuple. -/
theorem c1_tuple_counterexample :
    decode false (encodeHost (.tuple [.int 1, .int 2])) = .ok (.arr [.int 1, .int 2]) ∧
    embed (.arr [.int 1, .int 2]) = .list [.int 1, .int 2] ∧
    HostValue.list [.int 1, .int 2] ≠ HostValue.tuple [.int 1, .int 2] :=
  ⟨rfl, rfl, fun h => HostValue.noConfusion h⟩

/-- C1 (amended): decoding the encoding of any well-formed model value — the
tuple-free host values, with floats as canonical exact decimals — succeeds
and returns exactly that value. -/
theorem c1_roundtrip (v : Value) (hWF : WF v) :
    decode false (encode v) = .ok v := by
  have h := (parse_encode_all ((encode v).length + 1)).1 v [] hWF (by trivial) (by omega)
  rw [List.append_nil] at h
  simp only [decode, h, skipInsig_nil]

/-- C1 witness: the amended round trip at a concrete object value. -/
theorem c1_roundtrip_witness :
    WF (.obj [(['a'], .arr [.int 1, .str ['"']])]) ∧
    decode false (encode (.obj [(['a'], .arr [.int 1, .str ['"']])]))
      = .ok (.obj [(['a'], .arr [.int 1, .str ['"']])]) := by
  have hWF : WF (Value.obj [(['a'], .arr [.int 1, .str ['"']])]) := by
    refine WF.obj _ ?_
    intro kv hkv
    simp only [List.mem_singleton] at hkv
    subst hkv
    refine WF.arr _ ?_
    intro u hu
    simp only [List.mem_cons, List.mem_singleton, List.not_mem_nil, or_false] at hu
    rcases hu with hu | hu
    · subst hu; exact WF.int 1
    · subst hu; exact WF.str _
  exact ⟨hWF, c1_roundtrip _ hWF⟩

/-- C2: mode monotonicity — any document strict-mode decode accepts is
accepted by loose-mode decode with the identical value. -/
theorem c2_mode_monotonic (text : List Char) (v : Value)
    (h : decode true text = .ok v) : decode false text = .ok v := by
  simp only [decode] at h ⊢
  cases hp : parseValue true (text.length + 1) text with
  | error e =>
    simp only [hp] at h
    exact absurd h (by simp)
  | ok q =>
    obtain ⟨v1, rest⟩ := q
    simp only [hp] at h
    simp only [(parse_mono_all (text.length + 1)).1 text v1 rest hp]
    cases hs2 : skipInsig true rest with
    | error e =>
      simp only [hs2] at h
      exact absurd h (by simp)
    | ok r2 =>
      cases r2 with
      | nil =>
        simp only [hs2] at h
        simp only [skipInsig_mono rest [] hs2 (by simp)]
        exact h
      | cons a t =>
        simp only [hs2] at h
        exact absurd h (by simp)

/-- C2 witness: a document accepted in strict mode, re-decoded loosely. -/
theorem c2_mode_monotonic_witness :
    decode true ['[', '1', ']'] = .ok (.arr [.int 1]) ∧
    decode false ['[', '1', ']'] = .ok (.arr [.int 1]) :=
  ⟨rfl, c2_mode_monotonic ['[', '1', ']'] (.arr [.int 1]) rfl⟩

/-- C3, counterexample to the claim as stated: the encoder writes a space
after each `:` and `,`, so the encoded Patrick object (in either member
order) differs from both claimed no-whitespace texts. -/
theorem c3_separator_counterexample :
    encodeHost (.dict [("name".toList, .str "Patrick".toList), ("age".toList, .int 44)])
      ≠ "\x7b\"name\":\"Patrick\",\"age\":44\x7d".toList ∧
    encodeHost (.dict [("name".toList, .str "Patrick".toList), ("age".toList, .int 44)])
      ≠ "\x7b\"age\":44,\"name\":\"Patrick\"\x7d".toList ∧
    encodeHost (.dict [("age".toList, .int 44), ("name".toList, .str "Patrick".toList)])
      ≠ "\x7b\"name\":\"Patrick\",\"age\":44\x7d".toList ∧
    encodeHost (.dict [("age".toList, .int 44), ("name".toList, .str "Patrick".toList)])
      ≠ "\x7b\"age\":44,\"name\":\"Patrick\"\x7d".toList := by
  refine ⟨?_, ?_, ?_, ?_⟩ <;> decide

/-- C3 (amended): the separators are `": "` and `", "` — exactly one space
after the colon and the comma, none before — and stripping spaces recovers
the claimed no-whitespace texts, in either member order. -/
theorem c3_separators_amended :
    (∀ x : HostValue, ∀ y : HostValue, ∀ ys : List HostValue,
        encodeSeq (x :: y :: ys) = encodeHost x ++ ',' :: ' ' :: encodeSeq (y :: ys)) ∧
    (∀ k : List Char, ∀ v : HostValue, ∀ m : List Char × HostValue,
        ∀ ms : List (List Char × HostValue),
        encodeMembers ((k, v) :: m :: ms)
          = encodeString k ++ ':' :: ' ' :: encodeHost v ++ ',' :: ' '
              :: encodeMembers (m :: ms)) ∧
    (∀ k : List Char, ∀ v : HostValue,
        encodeMembers [(k, v)] = encodeString k ++ ':' :: ' ' :: encodeHost v) ∧
    encodeHost (.dict [("name".toList, .str "Patrick".toList), ("age".toList, .int 44)])
      = "\x7b\"name\": \"Patrick\", \"age\": 44\x7d".toList ∧
    removeSpaces (encodeHost (.dict [("name".toList, .str "Patrick".toList),
        ("age".toList, .int 44)]))
      = "\x7b\"name\":\"Patrick\",\"age\":44\x7d".toList ∧
    removeSpaces (encodeHost (.dict [("age".toList, .int 44),
        ("name".toList, .str "Patrick".toList)]))
      = "\x7b\"age\":44,\"name\":\"Patrick\"\x7d".toList := by
  refine ⟨fun x y ys => rfl, fun k v m ms => rfl, fun k v => rfl, rfl, ?_, ?_⟩ <;> decide

/-- C4 holds in the spec model: inside a string, a backslash before any
character that is not a recognized escape introducer fails the whole decode
with `InvalidEscape`; the character never reaches the output. -/
theorem c4_invalid_escape (strict : Bool) (p : List Char) (e : Char) (cs : List Char)
    (hp : ∀ a ∈ p, PlainCh a) (he : ¬EscIntro strict e) :
    decode strict ('"' :: (p ++ '\\' :: e :: cs)) = .error .InvalidEscape := by
  have hstep : parseValue strict ((p ++ '\\' :: e :: cs).length + 1 + 1)
      ('"' :: (p ++ '\\' :: e :: cs)) = .error .InvalidEscape := by
    simp only [parseValue, skipInsig_not_ws strict '"' _ (by decide) (by decide)]
    simp only [psb_bad_escape_run strict e cs he p ((p ++ '\\' :: e :: cs).length + 1) hp
      (by simp only [List.length_append, List.length_cons]; omega)]
    simp
  simp only [decode, List.length_cons, hstep]

/-- C4 witness: the backslash-then-em-dash escape from the pinned test. -/
theorem c4_invalid_escape_witness :
    (∀ a ∈ ['a'], PlainCh a) ∧ ¬EscIntro false (Char.ofNat 8211) ∧
    decode false ('"' :: (['a'] ++ '\\' :: Char.ofNat 8211
        :: "b\":123,\x7d // nothing".toList))
      = .error .InvalidEscape := by
  have h1 : ∀ a ∈ ['a'], PlainCh a := by
    intro a ha
    simp only [List.mem_singleton] at ha
    subst ha
    exact ⟨by decide, by decide, by decide, by decide⟩
  have h2 : ¬EscIntro false (Char.ofNat 8211) := by
    rw [EscIntro]
    decide
  exact ⟨h1, h2, c4_invalid_escape false ['a'] (Char.ofNat 8211) _ h1 h2⟩

/-- C5: a trailing comma before `}` is accepted in loose mode — yielding the
very object the comma-free document yields — and is `TrailingCommaInStrict`
in strict mode, at any point of the member loop and on the pinned test
documents. -/
theorem c5_trailing_comma :
    (∀ g : Nat, ∀ r : List Char, ∀ acc : List (List Char × Value),
        parseMembers false (g + 2) (',' :: '\x7d' :: r) .afterValue acc
          = .ok (.obj acc, r)) ∧
    (∀ g : Nat, ∀ r : List Char, ∀ acc : List (List Char × Value),
        parseMembers true (g + 2) (',' :: '\x7d' :: r) .afterValue acc
          = .error .TrailingCommaInStrict) ∧
    decode false "\x7b\"a\":123,\x7d // nothing".toList = .ok (.obj [(['a'], .int 123)]) ∧
    decode false "\x7b\"a\":123\x7d".toList = .ok (.obj [(['a'], .int 123)]) ∧
    decode true "\x7b\"a\":123,\x7d".toList = .error .TrailingCommaInStrict ∧
    decode true "\x7b\"a\":123\x7d".toList = .ok (.obj [(['a'], .int 123)]) := by
  refine ⟨?_, ?_, rfl, rfl, rfl, rfl⟩
  · intro g r acc
    rw [show g + 2 = (g + 1) + 1 from rfl, parseMembers_comma (g + 1) _ acc,
      parseMembers_close g r .awaitValue acc]
  · intro g r acc
    rw [show g + 2 = (g + 1) + 1 from rfl, parseMembers_comma_strict (g + 1) _ acc,
      parseMembers_close_strict_trailing g r acc]

/-- C6, counterexample to the claim as stated: a literal TAB (U+0009, an
unescaped control character) inside a string is accepted in both modes. -/
theorem c6_control_counterexample :
    decode false ['"', 'a', '\t', 'b', '"'] = .ok (.str ['a', '\t', 'b']) ∧
    decode true ['"', 'a', '\t', 'b', '"'] = .ok (.str ['a', '\t', 'b']) :=
  ⟨rfl, rfl⟩

/-- C6 (amended): among the unescaped controls exactly the literal line
terminators LF and CR are rejected inside strings, in both modes, with
`InvalidControlCharInString`, through any prefix of plain characters. -/
theorem c6_literal_newline (strict : Bool) (p : List Char) (c0 : Char) (cs : List Char)
    (hp : ∀ a ∈ p, PlainCh a) (hc : c0 = '\n' ∨ c0 = '\r') :
    decode strict ('"' :: (p ++ c0 :: cs)) = .error .InvalidControlCharInString := by
  have hstep : parseValue strict ((p ++ c0 :: cs).length + 1 + 1) ('"' :: (p ++ c0 :: cs))
      = .error .InvalidControlCharInString := by
    simp only [parseValue, skipInsig_not_ws strict '"' _ (by decide) (by decide)]
    simp only [psb_literal_newline_run strict c0 cs hc p ((p ++ c0 :: cs).length + 1) hp
      (by simp only [List.length_append, List.length_cons]; omega)]
    simp
  simp only [decode, List.length_cons, hstep]

/-- C6 witness: a literal LF inside a string, loose mode. -/
theorem c6_literal_newline_witness :
    (∀ a ∈ ['a'], PlainCh a) ∧ ('\n' = '\n' ∨ '\n' = '\r') ∧
    decode false ('"' :: (['a'] ++ '\n' :: ['b', '"']))
      = .error .InvalidControlCharInString := by
  have h1 : ∀ a ∈ ['a'], PlainCh a := by
    intro a ha
    simp only [List.mem_singleton] at ha
    subst ha
    exact ⟨by decide, by decide, by decide, by decide⟩
  exact ⟨h1, Or.inl rfl, c6_literal_newline false ['a'] '\n' ['b', '"'] h1 (Or.inl rfl)⟩

/-- C7: loose-mode line continuations — a backslash before LF, CR LF, or a
lone CR drops both the backslash and the terminator from the decoded string;
in strict mode those escapes are `InvalidEscape`; the pinned test document
behaves accordingly in each mode. -/
theorem c7_line_continuations :
    (∀ f : Nat, ∀ rest : List Char,
        parseStringBody false (f + 1) ('\\' :: '\n' :: rest)
          = parseStringBody false f rest) ∧
    (∀ f : Nat, ∀ rest : List Char,
        parseStringBody false (f + 1) ('\\' :: '\r' :: '\n' :: rest)
          = parseStringBody false f rest) ∧
    (∀ f : Nat, ∀ rest : List Char, rest.head? ≠ some '\n' →
        parseStringBody false (f + 1) ('\\' :: '\r' :: rest)
          = parseStringBody false f rest) ∧
    (∀ f : Nat, ∀ rest : List Char,
        parseStringBody true (f + 1) ('\\' :: '\n' :: rest) = .error .InvalidEscape) ∧
    (∀ f : Nat, ∀ rest : List Char,
        parseStringBody true (f + 1) ('\\' :: '\r' :: rest) = .error .InvalidEscape) ∧
    decode false "\x7b\"string\": \"blah blah \\\n more blahs \\\r\n\",\x7d // nothing".toList
      = .ok (.obj [("string".toList, .str "blah blah  more blahs ".toList)]) ∧
    decode true "\x7b\"string\": \"blah blah \\\n more blahs \\\r\n\",\x7d // nothing".toList
      = .error .InvalidEscape :=
  ⟨psb_line_continuation_lf, psb_line_continuation_crlf, psb_line_continuation_cr,
    psb_line_continuation_lf_strict, psb_line_continuation_cr_strict, rfl, rfl⟩

/-- C7 witness: the lone-CR continuation at a concrete tail. -/
theorem c7_line_continuations_witness :
    (['x', '"'] : List Char).head? ≠ some '\n' ∧
    parseStringBody false 4 ('\\' :: '\r' :: ['x', '"'])
      = parseStringBody false 3 ['x', '"'] :=
  ⟨by decide, c7_line_continuations.2.2.1 3 ['x', '"'] (by decide)⟩

/-- C8: loose mode decodes `.123` as the float 0.123 (the exact decimal
`123e-3` here), also inside the pinned test object, and strict mode rejects
integer-part-less literals. -/
theorem c8_leading_dot :
    decode false ".123".toList = .ok (.float 123 (-3)) ∧
    decode true ".123".toList = .error .UnexpectedCharacter ∧
    decode false "\x7b\"a\":.123,\x7d // nothing".toList
      = .ok (.obj [(['a'], .float 123 (-3))]) ∧
    decode false "-.5".toList = .ok (.float (-5) (-1)) ∧
    decode true "-.5".toList = .error .MissingLeadingZeroInStrict :=
  ⟨rfl, rfl, rfl, rfl, rfl⟩

/-- C9: the three-character document `"\"` fails with `InvalidEscape` in both
modes; decode never returns a value for it. -/
theorem c9_trailing_backslash :
    decode false ['"', '\\', '"'] = .error .InvalidEscape ∧
    decode true ['"', '\\', '"'] = .error .InvalidEscape :=
  ⟨rfl, rfl⟩

/-- C10: tuples encode exactly as lists — elementwise for any contents, and
at the pinned test inputs, including a tuple as an object member value. -/
theorem c10_tuples_as_lists :
    (∀ xs : List HostValue, encodeHost (.tuple xs) = encodeHost (.list xs)) ∧
    encodeHost (.tuple [.bool true, .bool false, .null]) = "[true, false, null]".toList ∧
    removeSpaces (encodeHost (.tuple [.bool true, .bool false, .null]))
      = "[true,false,null]".toList ∧
    encodeHost (.dict [("22".toList, .tuple [.int 1, .int 2])])
      = "\x7b\"22\": [1, 2]\x7d".toList :=
  ⟨fun xs => rfl, rfl, by decide, rfl⟩

end Chjson
